import Mathlib

/-!
# Tic-tac-toe: board queries, minimax search and best-move selection

A shallow embedding of `tic-tac-toe.cpp`.

* A cell is a `char`; it is modelled by its character code (`0` is the empty
  cell, `'X'` is 88, `'O'` is 79).  Nothing in the program restricts a cell to
  these three values, so neither does the model.
* `Board` is `std::array<std::array<char, 3>, 3>`: three rows of three cells.
* `minimax` and `find_best_move` mutate the board they are given by reference.
  They are modelled by explicit state passing: each returns the board it
  leaves behind.  `minimax` is recursive, so it takes a fuel argument (the
  number of nested calls it may make) and returns `none` when it runs out.
* The nested loops `for i in 0..3, for j in 0..3` are folds over the
  row-major list of the nine cell positions.
* The argument `depth` of `minimax` is incremented and passed on but never read;
  it is an unbounded integer here.
* `play_game` reads the human moves from the terminal; here they are a list of
  pairs `(row, col)`, and the `while (true)` loop is bounded by a number of
  turns.  Printing is left out.

The first part holds the program; the second part holds the definitions used to
state and prove its properties (the pure score `value`, the lines of the board,
the bounded searches `leB` and `geB` whose results certify bounds on the score,
the reference evaluator `referenceValue` over board snapshots, the exchange
`swapBoard` of the two symbols, and `play_game_boards`, the turn loop recording
the board after every turn); the third part holds the proofs.
-/

namespace TicTacToe

/-- A cell holds a `char`, modelled by its code. -/
abbrev Cell := Nat

/-- The character `'X'`. -/
def PX : Cell := 88

/-- The character `'O'`. -/
def PO : Cell := 79

/-- One row of the board: `std::array<char, 3>`. -/
structure Row where
  c0 : Cell
  c1 : Cell
  c2 : Cell
  deriving DecidableEq, Repr

/-- The board: `std::array<std::array<char, 3>, 3>`. -/
structure Board where
  r0 : Row
  r1 : Row
  r2 : Row
  deriving DecidableEq, Repr

/-- Read `row[j]`. -/
def Row.get (r : Row) (j : Fin 3) : Cell :=
  match j with
  | ⟨0, _⟩ => r.c0
  | ⟨1, _⟩ => r.c1
  | ⟨_ + 2, _⟩ => r.c2

/-- Write `row[j] = v`. -/
def Row.set (r : Row) (j : Fin 3) (v : Cell) : Row :=
  match j with
  | ⟨0, _⟩ => { r with c0 := v }
  | ⟨1, _⟩ => { r with c1 := v }
  | ⟨_ + 2, _⟩ => { r with c2 := v }

/-- Read `board[i][j]`. -/
def Board.get (b : Board) (i j : Fin 3) : Cell :=
  match i with
  | ⟨0, _⟩ => b.r0.get j
  | ⟨1, _⟩ => b.r1.get j
  | ⟨_ + 2, _⟩ => b.r2.get j

/-- Write `board[i][j] = v`. -/
def Board.set (b : Board) (i j : Fin 3) (v : Cell) : Board :=
  match i with
  | ⟨0, _⟩ => { b with r0 := b.r0.set j v }
  | ⟨1, _⟩ => { b with r1 := b.r1.set j v }
  | ⟨_ + 2, _⟩ => { b with r2 := b.r2.set j v }

/-- The board `Board board{}`: every cell zero. -/
def emptyBoard : Board := ⟨⟨0, 0, 0⟩, ⟨0, 0, 0⟩, ⟨0, 0, 0⟩⟩

/-- The nine positions in the order of `for i in 0..3 { for j in 0..3 }`. -/
def allCells : List (Fin 3 × Fin 3) :=
  [(0, 0), (0, 1), (0, 2), (1, 0), (1, 1), (1, 2), (2, 0), (2, 1), (2, 2)]

/-- `std::numeric_limits<int>::min()`. -/
def INT_MIN : Int := -2147483648

/-- `std::numeric_limits<int>::max()`. -/
def INT_MAX : Int := 2147483647

/-- The body of the loop of `check_winner` for the indices still to visit:
row `i` is tested before column `i`, and the first hit is returned. -/
def check_winner_loop (board : Board) : List (Fin 3) → Option Cell
  | [] => none
  | i :: rest =>
    if board.get i 0 ≠ 0 ∧ board.get i 0 = board.get i 1 ∧ board.get i 1 = board.get i 2 then
      some (board.get i 0)
    else if board.get 0 i ≠ 0 ∧ board.get 0 i = board.get 1 i ∧ board.get 1 i = board.get 2 i then
      some (board.get 0 i)
    else check_winner_loop board rest

/-- `check_winner`: the loop over `i`, then the two diagonals, then `{}`. -/
def check_winner (board : Board) : Option Cell :=
  match check_winner_loop board [0, 1, 2] with
  | some w => some w
  | none =>
    if board.get 0 0 ≠ 0 ∧ board.get 0 0 = board.get 1 1 ∧ board.get 1 1 = board.get 2 2 then
      some (board.get 0 0)
    else if board.get 0 2 ≠ 0 ∧ board.get 0 2 = board.get 1 1 ∧ board.get 1 1 = board.get 2 0 then
      some (board.get 0 2)
    else none

/-- `is_full`: false as soon as a zero cell is met, true otherwise. -/
def is_full (board : Board) : Bool :=
  allCells.all fun p => decide (board.get p.1 p.2 ≠ 0)

/-- `evaluate`: `+10` for a winner `'X'`, `-10` for a winner `'O'`, else `0`. -/
def evaluate (board : Board) : Int :=
  match check_winner board with
  | some winner => if winner = PX then 10 else if winner = PO then -10 else 0
  | none => 0

/-- One iteration of the loops of `minimax` at position `p`: if the cell is
empty, place `sym`, run the recursive call `rec` on the mutated board, fold its
score into `best` with `comb` (`std::max` or `std::min`), and clear the cell in
the board the call left behind. -/
def minimax_body (rec : Board → Option (Int × Board)) (sym : Cell)
    (comb : Int → Int → Int) (st : Int × Board) (p : Fin 3 × Fin 3) : Option (Int × Board) :=
  if st.2.get p.1 p.2 = 0 then
    match rec (st.2.set p.1 p.2 sym) with
    | none => none
    | some (v, board) => some (comb st.1 v, board.set p.1 p.2 0)
  else some st

/-- `minimax(board, depth, isMax)`, returning the score together with the board
it leaves behind.  The first argument bounds the nesting of recursive calls. -/
def minimax : Nat → Board → Int → Bool → Option (Int × Board)
  | 0, _, _, _ => none
  | fuel + 1, board, depth, isMax =>
    let score := evaluate board
    if score = 10 ∨ score = -10 then some (score, board)
    else if is_full board then some (0, board)
    else if isMax then
      allCells.foldlM
        (minimax_body (fun b => minimax fuel b (depth + 1) false) PX max) (INT_MIN, board)
    else
      allCells.foldlM
        (minimax_body (fun b => minimax fuel b (depth + 1) true) PO min) (INT_MAX, board)

/-- The local state of `find_best_move` across its loops: `bestVal`, the pair
`(row, col)` (`none` stands for the initial `(-1, -1)`; the two are only ever
assigned together), and the board. -/
structure FbmState where
  bestVal : Int
  pos : Option (Fin 3 × Fin 3)
  board : Board
  deriving DecidableEq, Repr

/-- One iteration of the loops of `find_best_move` at position `p`. -/
def find_best_move_body (fuel : Nat) (player : Cell) (st : FbmState) (p : Fin 3 × Fin 3) :
    Option FbmState :=
  if st.board.get p.1 p.2 = 0 then
    match minimax fuel (st.board.set p.1 p.2 player) 0 (decide (player = PO)) with
    | none => none
    | some (moveVal, board) =>
      let board := board.set p.1 p.2 0
      if (player = PX ∧ moveVal > st.bestVal) ∨ (player = PO ∧ moveVal < st.bestVal) then
        some ⟨moveVal, some p, board⟩
      else some ⟨st.bestVal, st.pos, board⟩
  else some st

/-- `find_best_move(board, player)`, returning the board it leaves behind. -/
def find_best_move (fuel : Nat) (board : Board) (player : Cell) : Option Board :=
  let bestVal := if player = PX then INT_MIN else INT_MAX
  match allCells.foldlM (find_best_move_body fuel player) ⟨bestVal, none, board⟩ with
  | none => none
  | some st =>
    match st.pos with
    | some (row, col) => some (st.board.set row col player)
    | none => some st.board

/-- How a game ends: `"Player w wins!"` or `"It's a draw!"`. -/
inductive Outcome where
  | win (w : Cell)
  | draw
  deriving DecidableEq, Repr

/-- `human_move`: the pairs `(row, col)` read from the input are tried in turn;
a pair out of range or naming an occupied cell is rejected and the next one is
read; the first acceptable pair is played.  Returns the board and the unread
input, or `none` when the input runs out before a move is made. -/
def human_move (board : Board) (player : Cell) :
    List (Int × Int) → Option (Board × List (Int × Int))
  | [] => none
  | (row, col) :: rest =>
    if h : 0 ≤ row ∧ row < 3 ∧ 0 ≤ col ∧ col < 3 then
      if board.get ⟨row.toNat, by omega⟩ ⟨col.toNat, by omega⟩ ≠ 0 then
        human_move board player rest
      else some (board.set ⟨row.toNat, by omega⟩ ⟨col.toNat, by omega⟩ player, rest)
    else human_move board player rest

/-- The turn loop of `play_game`, from a given board and mover.  `turns` bounds
the number of iterations; `fuel` is handed to `find_best_move`. -/
def play_game_loop (fuel : Nat) (mode : Int) :
    Nat → Board → Cell → List (Int × Int) → Option (Board × Outcome)
  | 0, _, _, _ => none
  | turns + 1, board, player, input =>
    let moved : Option (Board × List (Int × Int)) :=
      if mode = 0 ∨ (mode = 1 ∧ player = PO) then
        match find_best_move fuel board player with
        | none => none
        | some b => some (b, input)
      else human_move board player input
    match moved with
    | none => none
    | some (board, input) =>
      match check_winner board with
      | some winner => some (board, Outcome.win winner)
      | none =>
        if is_full board then some (board, Outcome.draw)
        else play_game_loop fuel mode turns board (if player = PX then PO else PX) input

/-- `play_game(mode)`: the turn loop from the empty board with `'X'` to move. -/
def play_game (fuel : Nat) (mode : Int) (turns : Nat) (input : List (Int × Int)) :
    Option (Board × Outcome) :=
  play_game_loop fuel mode turns emptyBoard PX input

/-- The empty positions of a board, in row-major order. -/
def emptyCells (b : Board) : List (Fin 3 × Fin 3) :=
  allCells.filter fun p => decide (b.get p.1 p.2 = 0)

/-- The number of empty cells of a board. -/
def countEmpty (b : Board) : Nat := (emptyCells b).length

/-- The score of a position as a pure function of the board: `evaluate` when it
is decisive, `0` on a full board, otherwise the maximum (for `isMax`) or the
minimum of the scores of the boards obtained by filling one empty cell, folded
from the same sentinels as the program uses. -/
def value : Nat → Board → Bool → Int
  | 0, _, _ => 0
  | n + 1, b, isMax =>
    if evaluate b = 10 ∨ evaluate b = -10 then evaluate b
    else if is_full b then 0
    else if isMax then
      ((emptyCells b).map fun p => value n (b.set p.1 p.2 PX) false).foldl max INT_MIN
    else
      ((emptyCells b).map fun p => value n (b.set p.1 p.2 PO) true).foldl min INT_MAX

/-- The test of `find_best_move` that makes a candidate score `x` replace the
running best `y`. -/
def better (player : Cell) (x y : Int) : Prop :=
  (player = PX ∧ x > y) ∨ (player = PO ∧ x < y)

/-- The position of a cell in the row-major scan. -/
def rowMajor (p : Fin 3 × Fin 3) : Nat := 3 * p.1.val + p.2.val

/-- A line of the board: three positions. -/
abbrev Line := (Fin 3 × Fin 3) × (Fin 3 × Fin 3) × (Fin 3 × Fin 3)

/-- The eight lines, in the order in which `check_winner` tests them: row 0,
column 0, row 1, column 1, row 2, column 2, main diagonal, anti-diagonal. -/
def lines : List Line :=
  [((0, 0), (0, 1), (0, 2)), ((0, 0), (1, 0), (2, 0)),
   ((1, 0), (1, 1), (1, 2)), ((0, 1), (1, 1), (2, 1)),
   ((2, 0), (2, 1), (2, 2)), ((0, 2), (1, 2), (2, 2)),
   ((0, 0), (1, 1), (2, 2)), ((0, 2), (1, 1), (2, 0))]

/-- The three cells of line `l` are equal and not empty. -/
def lineFull (b : Board) (l : Line) : Prop :=
  b.get l.1.1 l.1.2 ≠ 0 ∧ b.get l.1.1 l.1.2 = b.get l.2.1.1 l.2.1.2 ∧
    b.get l.2.1.1 l.2.1.2 = b.get l.2.2.1 l.2.2.2

instance (b : Board) (l : Line) : Decidable (lineFull b l) := by
  unfold lineFull; infer_instance

/-- The three cells of line `l` all hold `sym`. -/
def lineOf (b : Board) (sym : Cell) (l : Line) : Prop :=
  b.get l.1.1 l.1.2 = sym ∧ b.get l.2.1.1 l.2.1.2 = sym ∧ b.get l.2.2.1 l.2.2.2 = sym

instance (b : Board) (sym : Cell) (l : Line) : Decidable (lineOf b sym l) := by
  unfold lineOf; infer_instance

/-- What `check_winner` computes, line by line: the content of the first full
line of `ls`. -/
def firstFull (b : Board) : List Line → Option Cell
  | [] => none
  | l :: rest => if lineFull b l then some (b.get l.1.1 l.1.2) else firstFull b rest

/-- Every cell is empty, `'X'` or `'O'`. -/
def validBoard (b : Board) : Prop :=
  ∀ p : Fin 3 × Fin 3, b.get p.1 p.2 = 0 ∨ b.get p.1 p.2 = PX ∨ b.get p.1 p.2 = PO

/-- Three equal non-empty cells, as a boolean. -/
def line3 (a b c : Nat) : Bool := Nat.blt 0 a && (Nat.beq a b && Nat.beq b c)

/-- The content of the first full line in the order of `check_winner`, or `0`. -/
def winCode (a0 a1 a2 b0 b1 b2 c0 c1 c2 : Nat) : Nat :=
  bif line3 a0 a1 a2 then a0 else bif line3 a0 b0 c0 then a0 else
  bif line3 b0 b1 b2 then b0 else bif line3 a1 b1 c1 then a1 else
  bif line3 c0 c1 c2 then c0 else bif line3 a2 b2 c2 then a2 else
  bif line3 a0 b1 c2 then a0 else bif line3 a2 b1 c0 then a2 else 0

/-- Reading a code as an optional winner: `0` stands for no winner. -/
def codeToOpt (w : Nat) : Option Cell := if w = 0 then none else some w

/-- A bounded search certifying an upper bound on the score of a board with `e`
empty cells: `leB d e b isMax = true` implies that the score is at most `0`
(when `d` is true) or at most `-10` (when `d` is false).  Where `'X'` is to
move every reply must meet the bound; where `'O'` is to move one reply is
enough; the centre is tried first, then the corners, then the edges. -/
def leB (d : Bool) : Nat → Board → Bool → Bool
  | 0, ⟨⟨a0, a1, a2⟩, ⟨b0, b1, b2⟩, ⟨c0, c1, c2⟩⟩, _ =>
    bif Nat.beq (winCode a0 a1 a2 b0 b1 b2 c0 c1 c2) 88 then false
    else bif Nat.beq (winCode a0 a1 a2 b0 b1 b2 c0 c1 c2) 79 then true else d
  | e + 1, ⟨⟨a0, a1, a2⟩, ⟨b0, b1, b2⟩, ⟨c0, c1, c2⟩⟩, isMax =>
    bif Nat.beq (winCode a0 a1 a2 b0 b1 b2 c0 c1 c2) 88 then false
    else bif Nat.beq (winCode a0 a1 a2 b0 b1 b2 c0 c1 c2) 79 then true
    else bif isMax then
      (Nat.blt 0 b1 || leB d e ⟨⟨a0, a1, a2⟩, ⟨b0, 88, b2⟩, ⟨c0, c1, c2⟩⟩ false) &&
      (Nat.blt 0 a0 || leB d e ⟨⟨88, a1, a2⟩, ⟨b0, b1, b2⟩, ⟨c0, c1, c2⟩⟩ false) &&
      (Nat.blt 0 a2 || leB d e ⟨⟨a0, a1, 88⟩, ⟨b0, b1, b2⟩, ⟨c0, c1, c2⟩⟩ false) &&
      (Nat.blt 0 c0 || leB d e ⟨⟨a0, a1, a2⟩, ⟨b0, b1, b2⟩, ⟨88, c1, c2⟩⟩ false) &&
      (Nat.blt 0 c2 || leB d e ⟨⟨a0, a1, a2⟩, ⟨b0, b1, b2⟩, ⟨c0, c1, 88⟩⟩ false) &&
      (Nat.blt 0 a1 || leB d e ⟨⟨a0, 88, a2⟩, ⟨b0, b1, b2⟩, ⟨c0, c1, c2⟩⟩ false) &&
      (Nat.blt 0 b0 || leB d e ⟨⟨a0, a1, a2⟩, ⟨88, b1, b2⟩, ⟨c0, c1, c2⟩⟩ false) &&
      (Nat.blt 0 b2 || leB d e ⟨⟨a0, a1, a2⟩, ⟨b0, b1, 88⟩, ⟨c0, c1, c2⟩⟩ false) &&
      (Nat.blt 0 c1 || leB d e ⟨⟨a0, a1, a2⟩, ⟨b0, b1, b2⟩, ⟨c0, 88, c2⟩⟩ false)
    else
      (Nat.beq b1 0 && leB d e ⟨⟨a0, a1, a2⟩, ⟨b0, 79, b2⟩, ⟨c0, c1, c2⟩⟩ true) ||
      (Nat.beq a0 0 && leB d e ⟨⟨79, a1, a2⟩, ⟨b0, b1, b2⟩, ⟨c0, c1, c2⟩⟩ true) ||
      (Nat.beq a2 0 && leB d e ⟨⟨a0, a1, 79⟩, ⟨b0, b1, b2⟩, ⟨c0, c1, c2⟩⟩ true) ||
      (Nat.beq c0 0 && leB d e ⟨⟨a0, a1, a2⟩, ⟨b0, b1, b2⟩, ⟨79, c1, c2⟩⟩ true) ||
      (Nat.beq c2 0 && leB d e ⟨⟨a0, a1, a2⟩, ⟨b0, b1, b2⟩, ⟨c0, c1, 79⟩⟩ true) ||
      (Nat.beq a1 0 && leB d e ⟨⟨a0, 79, a2⟩, ⟨b0, b1, b2⟩, ⟨c0, c1, c2⟩⟩ true) ||
      (Nat.beq b0 0 && leB d e ⟨⟨a0, a1, a2⟩, ⟨79, b1, b2⟩, ⟨c0, c1, c2⟩⟩ true) ||
      (Nat.beq b2 0 && leB d e ⟨⟨a0, a1, a2⟩, ⟨b0, b1, 79⟩, ⟨c0, c1, c2⟩⟩ true) ||
      (Nat.beq c1 0 && leB d e ⟨⟨a0, a1, a2⟩, ⟨b0, b1, b2⟩, ⟨c0, 79, c2⟩⟩ true)

/-- A bounded search certifying a lower bound on the score of a board with `e`
empty cells: `geB d e b isMax = true` implies that the score is at least `0`
(when `d` is true) or at least `10` (when `d` is false). -/
def geB (d : Bool) : Nat → Board → Bool → Bool
  | 0, ⟨⟨a0, a1, a2⟩, ⟨b0, b1, b2⟩, ⟨c0, c1, c2⟩⟩, _ =>
    bif Nat.beq (winCode a0 a1 a2 b0 b1 b2 c0 c1 c2) 88 then true
    else bif Nat.beq (winCode a0 a1 a2 b0 b1 b2 c0 c1 c2) 79 then false else d
  | e + 1, ⟨⟨a0, a1, a2⟩, ⟨b0, b1, b2⟩, ⟨c0, c1, c2⟩⟩, isMax =>
    bif Nat.beq (winCode a0 a1 a2 b0 b1 b2 c0 c1 c2) 88 then true
    else bif Nat.beq (winCode a0 a1 a2 b0 b1 b2 c0 c1 c2) 79 then false
    else bif isMax then
      (Nat.beq b1 0 && geB d e ⟨⟨a0, a1, a2⟩, ⟨b0, 88, b2⟩, ⟨c0, c1, c2⟩⟩ false) ||
      (Nat.beq a0 0 && geB d e ⟨⟨88, a1, a2⟩, ⟨b0, b1, b2⟩, ⟨c0, c1, c2⟩⟩ false) ||
      (Nat.beq a2 0 && geB d e ⟨⟨a0, a1, 88⟩, ⟨b0, b1, b2⟩, ⟨c0, c1, c2⟩⟩ false) ||
      (Nat.beq c0 0 && geB d e ⟨⟨a0, a1, a2⟩, ⟨b0, b1, b2⟩, ⟨88, c1, c2⟩⟩ false) ||
      (Nat.beq c2 0 && geB d e ⟨⟨a0, a1, a2⟩, ⟨b0, b1, b2⟩, ⟨c0, c1, 88⟩⟩ false) ||
      (Nat.beq a1 0 && geB d e ⟨⟨a0, 88, a2⟩, ⟨b0, b1, b2⟩, ⟨c0, c1, c2⟩⟩ false) ||
      (Nat.beq b0 0 && geB d e ⟨⟨a0, a1, a2⟩, ⟨88, b1, b2⟩, ⟨c0, c1, c2⟩⟩ false) ||
      (Nat.beq b2 0 && geB d e ⟨⟨a0, a1, a2⟩, ⟨b0, b1, 88⟩, ⟨c0, c1, c2⟩⟩ false) ||
      (Nat.beq c1 0 && geB d e ⟨⟨a0, a1, a2⟩, ⟨b0, b1, b2⟩, ⟨c0, 88, c2⟩⟩ false)
    else
      (Nat.blt 0 b1 || geB d e ⟨⟨a0, a1, a2⟩, ⟨b0, 79, b2⟩, ⟨c0, c1, c2⟩⟩ true) &&
      (Nat.blt 0 a0 || geB d e ⟨⟨79, a1, a2⟩, ⟨b0, b1, b2⟩, ⟨c0, c1, c2⟩⟩ true) &&
      (Nat.blt 0 a2 || geB d e ⟨⟨a0, a1, 79⟩, ⟨b0, b1, b2⟩, ⟨c0, c1, c2⟩⟩ true) &&
      (Nat.blt 0 c0 || geB d e ⟨⟨a0, a1, a2⟩, ⟨b0, b1, b2⟩, ⟨79, c1, c2⟩⟩ true) &&
      (Nat.blt 0 c2 || geB d e ⟨⟨a0, a1, a2⟩, ⟨b0, b1, b2⟩, ⟨c0, c1, 79⟩⟩ true) &&
      (Nat.blt 0 a1 || geB d e ⟨⟨a0, 79, a2⟩, ⟨b0, b1, b2⟩, ⟨c0, c1, c2⟩⟩ true) &&
      (Nat.blt 0 b0 || geB d e ⟨⟨a0, a1, a2⟩, ⟨79, b1, b2⟩, ⟨c0, c1, c2⟩⟩ true) &&
      (Nat.blt 0 b2 || geB d e ⟨⟨a0, a1, a2⟩, ⟨b0, b1, 79⟩, ⟨c0, c1, c2⟩⟩ true) &&
      (Nat.blt 0 c1 || geB d e ⟨⟨a0, a1, a2⟩, ⟨b0, b1, b2⟩, ⟨c0, 79, c2⟩⟩ true)

/-- A certificate that the score of a board with `e` empty cells is at most `s`. -/
def certLe (s : Int) (e : Nat) (b : Board) (isMax : Bool) : Bool :=
  if 10 ≤ s then true
  else if 0 ≤ s then leB true e b isMax
  else if -10 ≤ s then leB false e b isMax
  else false

/-- A certificate that the score of a board with `e` empty cells is at least `s`. -/
def certGe (s : Int) (e : Nat) (b : Board) (isMax : Bool) : Bool :=
  if s ≤ -10 then true
  else if s ≤ 0 then geB true e b isMax
  else if s ≤ 10 then geB false e b isMax
  else false

/-- A certificate that `find_best_move` for `'X'` on a board with `e + 1` empty
cells fills `c`: `c` is empty and scores at least `s`, every empty cell before
`c` scores less than `s`, and every empty cell after `c` scores at most `s`. -/
def moveCertX (s : Int) (e : Nat) (b : Board) (c : Fin 3 × Fin 3) : Bool :=
  decide (b.get c.1 c.2 = 0) && allCells.all fun p =>
    decide (b.get p.1 p.2 ≠ 0) ||
      (if rowMajor p < rowMajor c then certLe (s - 1) e (b.set p.1 p.2 PX) false
       else if rowMajor c < rowMajor p then certLe s e (b.set p.1 p.2 PX) false
       else certGe s e (b.set p.1 p.2 PX) false)

/-- A certificate that `find_best_move` for `'O'` on a board with `e + 1` empty
cells fills `c`: `c` is empty and scores at most `s`, every empty cell before
`c` scores more than `s`, and every empty cell after `c` scores at least `s`. -/
def moveCertO (s : Int) (e : Nat) (b : Board) (c : Fin 3 × Fin 3) : Bool :=
  decide (b.get c.1 c.2 = 0) && allCells.all fun p =>
    decide (b.get p.1 p.2 ≠ 0) ||
      (if rowMajor p < rowMajor c then certGe (s + 1) e (b.set p.1 p.2 PO) true
       else if rowMajor c < rowMajor p then certGe s e (b.set p.1 p.2 PO) true
       else certLe s e (b.set p.1 p.2 PO) true)

/-- The three positions of a line. -/
def cellsOf (l : Line) : List (Fin 3 × Fin 3) := [l.1, l.2.1, l.2.2]

/-- Line `l` has two cells holding `sym` and its third cell `c` empty. -/
def threat (b : Board) (sym : Cell) (l : Line) (c : Fin 3 × Fin 3) : Prop :=
  l ∈ lines ∧ c ∈ cellsOf l ∧ b.get c.1 c.2 = 0 ∧
    ∀ q ∈ cellsOf l, q ≠ c → b.get q.1 q.2 = sym

instance (b : Board) (sym : Cell) (l : Line) (c : Fin 3 × Fin 3) :
    Decidable (threat b sym l c) := by
  unfold threat; infer_instance

/-- The board of the scenario: `X X _ / O O _ / _ _ _`. -/
def scenarioBoard : Board := ⟨⟨PX, PX, 0⟩, ⟨PO, PO, 0⟩, ⟨0, 0, 0⟩⟩

/-- A decided board: `_ _ _ / X X _ / O O O`. -/
def decidedBoard : Board := ⟨⟨0, 0, 0⟩, ⟨PX, PX, 0⟩, ⟨PO, PO, PO⟩⟩

/-- A board on which `'X'` wins whatever `'O'` replies: `X O _ / _ X _ / _ _ _`. -/
def forkBoard : Board := ⟨⟨PX, PO, 0⟩, ⟨0, PX, 0⟩, ⟨0, 0, 0⟩⟩

/-- A board on which `'O'` has to block the top row: `X X _ / _ O _ / _ _ _`. -/
def blockBoard : Board := ⟨⟨PX, PX, 0⟩, ⟨0, PO, 0⟩, ⟨0, 0, 0⟩⟩

/-- A board with one empty cell on which `'O'` already owns the top row:
`O O O / X X _ / X O X`. -/
def lateBoard : Board := ⟨⟨PO, PO, PO⟩, ⟨PX, PX, 0⟩, ⟨PX, PO, PX⟩⟩

/-- A board with one empty cell and no full line: `X X _ / O O X / O X O`. -/
def lastCellBoard : Board := ⟨⟨PX, PX, 0⟩, ⟨PO, PO, PX⟩, ⟨PO, PX, PO⟩⟩

/-- The greatest element of a non-empty list (`0` for the empty list). -/
def maxOf : List Int → Int
  | [] => 0
  | x :: xs => xs.foldl max x

/-- The least element of a non-empty list (`0` for the empty list). -/
def minOf : List Int → Int
  | [] => 0
  | x :: xs => xs.foldl min x

/-- The reference evaluator over board snapshots, with a bound on the number of
levels it may descend: `evaluate b` if it is `+10` or `-10`; else `0` if `b` is
full; else the greatest of the values of the boards with `'X'` on one empty cell
(for `isMax`), or the least of the values of the boards with `'O'` on one empty
cell.  No board is modified and no sentinel is used. -/
def referenceAux : Nat → Board → Bool → Int
  | 0, _, _ => 0
  | n + 1, b, isMax =>
    if evaluate b = 10 ∨ evaluate b = -10 then evaluate b
    else if is_full b then 0
    else if isMax then
      maxOf ((emptyCells b).map fun c => referenceAux n (b.set c.1 c.2 PX) false)
    else
      minOf ((emptyCells b).map fun c => referenceAux n (b.set c.1 c.2 PO) true)

/-- The reference evaluator: every level of the recursion fills one empty cell,
so one level more than the number of empty cells is all it can use. -/
def referenceValue (b : Board) (isMax : Bool) : Int :=
  referenceAux (countEmpty b + 1) b isMax

/-- Exchange `'X'` and `'O'`; any other cell content is left as it is. -/
def swapCell (c : Cell) : Cell := if c = PX then PO else if c = PO then PX else c

/-- Exchange `'X'` and `'O'` in a row. -/
def swapRow (r : Row) : Row := ⟨swapCell r.c0, swapCell r.c1, swapCell r.c2⟩

/-- Exchange `'X'` and `'O'` on the whole board. -/
def swapBoard (b : Board) : Board := ⟨swapRow b.r0, swapRow b.r1, swapRow b.r2⟩

/-- The number of cells of the board holding `s`. -/
def countSym (s : Cell) (b : Board) : Nat :=
  allCells.countP fun p => decide (b.get p.1 p.2 = s)

/-- The number of `'X'` cells minus the number of `'O'` cells. -/
def symDiff (b : Board) : Int := (countSym PX b : Int) - (countSym PO b : Int)

/-- The turn loop of `play_game` once more, recording the board after every turn
instead of the result: the move is made as in `play_game_loop`, the new board is
recorded, and the loop goes on under the same conditions. -/
def play_game_boards (fuel : Nat) (mode : Int) :
    Nat → Board → Cell → List (Int × Int) → List Board
  | 0, _, _, _ => []
  | turns + 1, board, player, input =>
    let moved : Option (Board × List (Int × Int)) :=
      if mode = 0 ∨ (mode = 1 ∧ player = PO) then
        match find_best_move fuel board player with
        | none => none
        | some b => some (b, input)
      else human_move board player input
    match moved with
    | none => []
    | some (board, input) =>
      board ::
        (match check_winner board with
         | some _ => []
         | none =>
           if is_full board then []
           else play_game_boards fuel mode turns board (if player = PX then PO else PX) input)

/-! ## Lemmas and theorems -/

theorem Board.get_set_same (b : Board) (i j : Fin 3) (v : Cell) :
    (b.set i j v).get i j = v := by
  fin_cases i <;> fin_cases j <;> rfl

theorem Board.get_set_other (b : Board) (p q : Fin 3 × Fin 3) (v : Cell) (h : q ≠ p) :
    (b.set p.1 p.2 v).get q.1 q.2 = b.get q.1 q.2 := by
  obtain ⟨i, j⟩ := p
  obtain ⟨k, l⟩ := q
  fin_cases i <;> fin_cases j <;> fin_cases k <;> fin_cases l <;>
    first | rfl | exact absurd rfl h

theorem Board.set_get (b : Board) (i j : Fin 3) : b.set i j (b.get i j) = b := by
  fin_cases i <;> fin_cases j <;> rfl

theorem Board.set_set (b : Board) (i j : Fin 3) (v w : Cell) :
    (b.set i j v).set i j w = b.set i j w := by
  fin_cases i <;> fin_cases j <;> rfl

theorem Board.set_restore (b : Board) (i j : Fin 3) (v : Cell) (h : b.get i j = 0) :
    (b.set i j v).set i j 0 = b := by
  rw [Board.set_set, ← h, Board.set_get]

theorem allCells_nodup : allCells.Nodup := by decide

theorem mem_allCells (p : Fin 3 × Fin 3) : p ∈ allCells := by
  obtain ⟨i, j⟩ := p
  fin_cases i <;> fin_cases j <;> simp [allCells]

theorem countP_update {α : Type} [DecidableEq α] (q r : α → Bool) (p : α) :
    ∀ l : List α, l.Nodup → p ∈ l → q p = true → r p = false →
      (∀ x, x ≠ p → r x = q x) → l.countP r + 1 = l.countP q := by
  intro l
  induction l with
  | nil => intro _ h; simp at h
  | cons a t ih =>
    intro hnd hmem hq hr hoth
    rw [List.nodup_cons] at hnd
    by_cases hap : a = p
    · subst hap
      have ht : t.countP r = t.countP q := by
        apply List.countP_congr
        intro x hx
        have hxa : x ≠ a := fun h => hnd.1 (h ▸ hx)
        rw [hoth x hxa]
      simp [List.countP_cons, hq, hr, ht]
    · have hpt : p ∈ t := by
        rcases List.mem_cons.1 hmem with h | h
        · exact absurd h.symm hap
        · exact h
      have := ih hnd.2 hpt hq hr hoth
      simp only [List.countP_cons, hoth a hap]
      omega

theorem countEmpty_eq_countP (b : Board) :
    countEmpty b = allCells.countP fun p => decide (b.get p.1 p.2 = 0) := by
  simp [countEmpty, emptyCells, List.countP_eq_length_filter]

theorem countEmpty_set (b : Board) (p : Fin 3 × Fin 3) (v : Cell)
    (h : b.get p.1 p.2 = 0) (hv : v ≠ 0) :
    countEmpty (b.set p.1 p.2 v) + 1 = countEmpty b := by
  rw [countEmpty_eq_countP, countEmpty_eq_countP]
  apply countP_update _ _ p allCells allCells_nodup (mem_allCells p)
  · simp [h]
  · simp [Board.get_set_same, hv]
  · intro x hx
    rw [Board.get_set_other b p x v hx]

theorem PX_ne_zero : PX ≠ 0 := by decide

theorem PO_ne_zero : PO ≠ 0 := by decide

/-- The loop of `minimax` when every recursive call returns the score `V p`
and hands back the board it was given. -/
theorem minimax_loop (rec : Board → Option (Int × Board)) (sym : Cell)
    (comb : Int → Int → Int) (V : Fin 3 × Fin 3 → Int) (b : Board) :
    ∀ (l : List (Fin 3 × Fin 3)) (best : Int),
      (∀ p ∈ l, b.get p.1 p.2 = 0 → rec (b.set p.1 p.2 sym) = some (V p, b.set p.1 p.2 sym)) →
      l.foldlM (minimax_body rec sym comb) (best, b) =
        some (((l.filter fun p => decide (b.get p.1 p.2 = 0)).map V).foldl comb best, b) := by
  intro l
  induction l with
  | nil => intro best _; rfl
  | cons p t ih =>
    intro best h
    have ht : ∀ q ∈ t, b.get q.1 q.2 = 0 →
        rec (b.set q.1 q.2 sym) = some (V q, b.set q.1 q.2 sym) :=
      fun q hq => h q (List.mem_cons_of_mem _ hq)
    rw [List.foldlM_cons]
    by_cases hp : b.get p.1 p.2 = 0
    · have hb : minimax_body rec sym comb (best, b) p = some (comb best (V p), b) := by
        simp only [minimax_body, hp, if_true, h p (List.mem_cons_self _ _) hp,
          Board.set_restore b p.1 p.2 sym hp]
      rw [hb]
      simp only [Option.bind_eq_bind, Option.some_bind]
      rw [ih _ ht]
      simp [List.filter_cons, hp]
    · have hb : minimax_body rec sym comb (best, b) p = some (best, b) := by
        simp only [minimax_body, hp, if_false]
      rw [hb]
      simp only [Option.bind_eq_bind, Option.some_bind]
      rw [ih _ ht]
      simp [List.filter_cons, hp]

/-- With more fuel than empty cells, `minimax` returns the pure score and
leaves the board as it found it. -/
theorem minimax_eq_value : ∀ (fuel : Nat) (b : Board) (depth : Int) (isMax : Bool),
    countEmpty b < fuel → minimax fuel b depth isMax = some (value fuel b isMax, b) := by
  intro fuel
  induction fuel with
  | zero => intro b depth isMax h; omega
  | succ n ih =>
    intro b depth isMax h
    unfold minimax value
    by_cases hs : evaluate b = 10 ∨ evaluate b = -10
    · simp only [hs, if_true]
    · simp only [hs, if_false]
      by_cases hf : is_full b = true
      · simp only [hf, if_true]
      · simp only [hf]
        cases isMax
        · simp only [Bool.false_eq_true, if_false]
          rw [minimax_loop _ PO min (fun p => value n (b.set p.1 p.2 PO) true) b allCells]
          · rfl
          · intro p _ hp
            apply ih
            have := countEmpty_set b p PO hp PO_ne_zero
            omega
        · simp only [if_true]
          rw [minimax_loop _ PX max (fun p => value n (b.set p.1 p.2 PX) false) b allCells]
          · rfl
          · intro p _ hp
            apply ih
            have := countEmpty_set b p PX hp PX_ne_zero
            omega

/-- The loop of `minimax` hands back the board it started from, as long as
every recursive call does. -/
theorem minimax_loop_board (rec : Board → Option (Int × Board)) (sym : Cell)
    (comb : Int → Int → Int) (b : Board)
    (hrec : ∀ c r, rec c = some r → r.2 = c) :
    ∀ (l : List (Fin 3 × Fin 3)) (best : Int) (r : Int × Board),
      l.foldlM (minimax_body rec sym comb) (best, b) = some r → r.2 = b := by
  intro l
  induction l with
  | nil =>
    intro best r h
    simp only [List.foldlM_nil, pure, Option.some.injEq] at h
    rw [← h]
  | cons p t ih =>
    intro best r h
    rw [List.foldlM_cons] at h
    by_cases hp : b.get p.1 p.2 = 0
    · cases hc : rec (b.set p.1 p.2 sym) with
      | none =>
        simp [minimax_body, hp, hc] at h
      | some vr =>
        have hvr := hrec _ _ hc
        have hb : minimax_body rec sym comb (best, b) p = some (comb best vr.1, b) := by
          obtain ⟨v, c⟩ := vr
          simp only at hvr
          subst hvr
          simp only [minimax_body, hp, if_true, hc, Board.set_restore b p.1 p.2 sym hp]
        rw [hb] at h
        simp only [Option.bind_eq_bind, Option.some_bind] at h
        exact ih _ _ h
    · have hb : minimax_body rec sym comb (best, b) p = some (best, b) := by
        simp only [minimax_body, hp, if_false]
      rw [hb] at h
      simp only [Option.bind_eq_bind, Option.some_bind] at h
      exact ih _ _ h

/-- Whatever the fuel, a call of `minimax` that returns hands back the board
it was given. -/
theorem minimax_board : ∀ (fuel : Nat) (b : Board) (depth : Int) (isMax : Bool)
    (r : Int × Board), minimax fuel b depth isMax = some r → r.2 = b := by
  intro fuel
  induction fuel with
  | zero => intro b depth isMax r h; simp [minimax] at h
  | succ n ih =>
    intro b depth isMax r h
    unfold minimax at h
    by_cases hs : evaluate b = 10 ∨ evaluate b = -10
    · simp only [hs, if_true, Option.some.injEq] at h
      rw [← h]
    · simp only [hs, if_false] at h
      by_cases hf : is_full b = true
      · simp only [hf, if_true, Option.some.injEq] at h
        rw [← h]
      · simp only [hf] at h
        cases isMax
        · simp only [Bool.false_eq_true, if_false] at h
          exact minimax_loop_board _ PO min b (fun c r hc => ih c _ _ r hc) allCells _ r h
        · simp only [if_true] at h
          exact minimax_loop_board _ PX max b (fun c r hc => ih c _ _ r hc) allCells _ r h

theorem better_trans {player : Cell} {a b c : Int} (h1 : better player a b)
    (h2 : better player b c) : better player a c := by
  have hne : PX ≠ PO := by decide
  unfold better at *
  rcases h1 with ⟨hp, h1⟩ | ⟨hp, h1⟩ <;> rcases h2 with ⟨hq, h2⟩ | ⟨hq, h2⟩
  · exact Or.inl ⟨hp, by omega⟩
  · exact absurd (hp.symm.trans hq) hne
  · exact absurd (hq.symm.trans hp) hne
  · exact Or.inr ⟨hp, by omega⟩

theorem better_of_not_better {player : Cell} {a b c : Int} (h1 : ¬ better player a b)
    (h2 : better player c b) : better player c a := by
  unfold better at *
  rcases h2 with ⟨hp, h2⟩ | ⟨hp, h2⟩
  · refine Or.inl ⟨hp, ?_⟩
    have : ¬ a > b := fun h => h1 (Or.inl ⟨hp, h⟩)
    omega
  · refine Or.inr ⟨hp, ?_⟩
    have : ¬ a < b := fun h => h1 (Or.inr ⟨hp, h⟩)
    omega

/-- The loops of `find_best_move` over the positions `l`, when the search at
every empty cell returns the score `V p` and hands back its board: either no
candidate of `l` replaced the running best, or the loop stopped on the first
candidate of `l` that no other candidate of `l` beats. -/
theorem fbm_loop (fuel : Nat) (player : Cell) (b : Board) (V : Fin 3 × Fin 3 → Int)
    (hV : ∀ p : Fin 3 × Fin 3, b.get p.1 p.2 = 0 →
      minimax fuel (b.set p.1 p.2 player) 0 (decide (player = PO)) =
        some (V p, b.set p.1 p.2 player)) :
    ∀ (l : List (Fin 3 × Fin 3)) (bestVal : Int) (pos : Option (Fin 3 × Fin 3)),
      ∃ bv pos1, l.foldlM (find_best_move_body fuel player) ⟨bestVal, pos, b⟩ =
          some ⟨bv, pos1, b⟩ ∧
        ((bv = bestVal ∧ pos1 = pos ∧
            ∀ p ∈ l, b.get p.1 p.2 = 0 → ¬ better player (V p) bestVal) ∨
         (∃ l0 c l1, l = l0 ++ c :: l1 ∧ b.get c.1 c.2 = 0 ∧ pos1 = some c ∧ bv = V c ∧
            better player (V c) bestVal ∧
            (∀ p ∈ l0, b.get p.1 p.2 = 0 → better player (V c) (V p)) ∧
            (∀ p ∈ l1, b.get p.1 p.2 = 0 → ¬ better player (V p) (V c)))) := by
  intro l
  induction l with
  | nil =>
    intro bestVal pos
    exact ⟨bestVal, pos, rfl, Or.inl ⟨rfl, rfl, fun p hp => absurd hp (List.not_mem_nil p)⟩⟩
  | cons p t ih =>
    intro bestVal pos
    rw [List.foldlM_cons]
    by_cases hp : b.get p.1 p.2 = 0
    · by_cases hb : better player (V p) bestVal
      · have hbody : find_best_move_body fuel player ⟨bestVal, pos, b⟩ p =
            some ⟨V p, some p, b⟩ := by
          have hb2 : (player = PX ∧ V p > bestVal) ∨ (player = PO ∧ V p < bestVal) := hb
          simp only [find_best_move_body, hp, if_true, hV p hp,
            Board.set_restore b p.1 p.2 player hp, hb2]
        rw [hbody]
        simp only [Option.bind_eq_bind, Option.some_bind]
        obtain ⟨bv, pos1, hrun, hcase⟩ := ih (V p) (some p)
        refine ⟨bv, pos1, hrun, Or.inr ?_⟩
        rcases hcase with ⟨hbv, hpos, hall⟩ | ⟨l0, c, l1, hl, hc, hpos, hbv, hbet, h0, h1⟩
        · exact ⟨[], p, t, rfl, hp, hpos, hbv, hb,
            fun q hq => absurd hq (List.not_mem_nil q), hall⟩
        · refine ⟨p :: l0, c, l1, by rw [hl]; rfl, hc, hpos, hbv, better_trans hbet hb, ?_, h1⟩
          intro q hq hq0
          rcases List.mem_cons.1 hq with h | h
          · rw [h]; exact hbet
          · exact h0 q h hq0
      · have hbody : find_best_move_body fuel player ⟨bestVal, pos, b⟩ p =
            some ⟨bestVal, pos, b⟩ := by
          have hb2 : ¬ ((player = PX ∧ V p > bestVal) ∨ (player = PO ∧ V p < bestVal)) := hb
          simp only [find_best_move_body, hp, if_true, hV p hp,
            Board.set_restore b p.1 p.2 player hp, hb2, if_false]
        rw [hbody]
        simp only [Option.bind_eq_bind, Option.some_bind]
        obtain ⟨bv, pos1, hrun, hcase⟩ := ih bestVal pos
        refine ⟨bv, pos1, hrun, ?_⟩
        rcases hcase with ⟨hbv, hpos, hall⟩ | ⟨l0, c, l1, hl, hc, hpos, hbv, hbet, h0, h1⟩
        · refine Or.inl ⟨hbv, hpos, ?_⟩
          intro q hq hq0
          rcases List.mem_cons.1 hq with h | h
          · rw [h]; exact hb
          · exact hall q h hq0
        · refine Or.inr ⟨p :: l0, c, l1, by rw [hl]; rfl, hc, hpos, hbv, hbet, ?_, h1⟩
          intro q hq hq0
          rcases List.mem_cons.1 hq with h | h
          · rw [h]; exact better_of_not_better hb hbet
          · exact h0 q h hq0
    · have hbody : find_best_move_body fuel player ⟨bestVal, pos, b⟩ p =
          some ⟨bestVal, pos, b⟩ := by
        simp only [find_best_move_body, hp, if_false]
      rw [hbody]
      simp only [Option.bind_eq_bind, Option.some_bind]
      obtain ⟨bv, pos1, hrun, hcase⟩ := ih bestVal pos
      refine ⟨bv, pos1, hrun, ?_⟩
      rcases hcase with ⟨hbv, hpos, hall⟩ | ⟨l0, c, l1, hl, hc, hpos, hbv, hbet, h0, h1⟩
      · refine Or.inl ⟨hbv, hpos, ?_⟩
        intro q hq hq0
        rcases List.mem_cons.1 hq with h | h
        · rw [h] at hq0; exact absurd hq0 hp
        · exact hall q h hq0
      · refine Or.inr ⟨p :: l0, c, l1, by rw [hl]; rfl, hc, hpos, hbv, hbet, ?_, h1⟩
        intro q hq hq0
        rcases List.mem_cons.1 hq with h | h
        · rw [h] at hq0; exact absurd hq0 hp
        · exact h0 q h hq0

theorem foldl_max_le (k : Int) : ∀ (l : List Int) (init : Int),
    l.foldl max init ≤ k ↔ init ≤ k ∧ ∀ x ∈ l, x ≤ k := by
  intro l
  induction l with
  | nil => intro init; simp
  | cons a t ih =>
    intro init
    rw [List.foldl_cons, ih, max_le_iff]
    simp only [List.mem_cons, forall_eq_or_imp]
    tauto

theorem le_foldl_max (k : Int) : ∀ (l : List Int) (init : Int),
    k ≤ l.foldl max init ↔ k ≤ init ∨ ∃ x ∈ l, k ≤ x := by
  intro l
  induction l with
  | nil => intro init; simp
  | cons a t ih =>
    intro init
    rw [List.foldl_cons, ih, le_max_iff]
    simp only [List.mem_cons, exists_eq_or_imp]
    tauto

theorem le_foldl_min (k : Int) : ∀ (l : List Int) (init : Int),
    k ≤ l.foldl min init ↔ k ≤ init ∧ ∀ x ∈ l, k ≤ x := by
  intro l
  induction l with
  | nil => intro init; simp
  | cons a t ih =>
    intro init
    rw [List.foldl_cons, ih, le_min_iff]
    simp only [List.mem_cons, forall_eq_or_imp]
    tauto

theorem foldl_min_le (k : Int) : ∀ (l : List Int) (init : Int),
    l.foldl min init ≤ k ↔ init ≤ k ∨ ∃ x ∈ l, x ≤ k := by
  intro l
  induction l with
  | nil => intro init; simp
  | cons a t ih =>
    intro init
    rw [List.foldl_cons, ih, min_le_iff]
    simp only [List.mem_cons, exists_eq_or_imp]
    tauto

theorem foldl_max_mem : ∀ (l : List Int) (init : Int),
    l.foldl max init = init ∨ l.foldl max init ∈ l := by
  intro l
  induction l with
  | nil => intro init; exact Or.inl rfl
  | cons a t ih =>
    intro init
    rw [List.foldl_cons]
    rcases ih (max init a) with h | h
    · rw [h]
      rcases max_choice init a with h2 | h2
      · exact Or.inl h2
      · exact Or.inr (by rw [h2]; exact List.mem_cons_self _ _)
    · exact Or.inr (List.mem_cons_of_mem _ h)

theorem foldl_min_mem : ∀ (l : List Int) (init : Int),
    l.foldl min init = init ∨ l.foldl min init ∈ l := by
  intro l
  induction l with
  | nil => intro init; exact Or.inl rfl
  | cons a t ih =>
    intro init
    rw [List.foldl_cons]
    rcases ih (min init a) with h | h
    · rw [h]
      rcases min_choice init a with h2 | h2
      · exact Or.inl h2
      · exact Or.inr (by rw [h2]; exact List.mem_cons_self _ _)
    · exact Or.inr (List.mem_cons_of_mem _ h)

theorem mem_emptyCells (b : Board) (p : Fin 3 × Fin 3) :
    p ∈ emptyCells b ↔ b.get p.1 p.2 = 0 := by
  simp [emptyCells, mem_allCells]

theorem is_full_iff (b : Board) : is_full b = true ↔ ∀ p : Fin 3 × Fin 3, b.get p.1 p.2 ≠ 0 := by
  unfold is_full
  rw [List.all_eq_true]
  constructor
  · intro h p
    simpa using h p (mem_allCells p)
  · intro h p _
    simpa using h p

theorem is_full_iff_countEmpty (b : Board) : is_full b = true ↔ countEmpty b = 0 := by
  rw [is_full_iff]
  unfold countEmpty
  rw [List.length_eq_zero]
  constructor
  · intro h
    apply List.eq_nil_iff_forall_not_mem.2
    intro p hp
    exact h p ((mem_emptyCells b p).1 hp)
  · intro h p hp
    have : p ∈ emptyCells b := (mem_emptyCells b p).2 hp
    rw [h] at this
    exact absurd this (List.not_mem_nil p)

theorem evaluate_cases (b : Board) : evaluate b = -10 ∨ evaluate b = 0 ∨ evaluate b = 10 := by
  unfold evaluate
  split
  · split
    · exact Or.inr (Or.inr rfl)
    · split
      · exact Or.inl rfl
      · exact Or.inr (Or.inl rfl)
  · exact Or.inr (Or.inl rfl)

/-- The pure score is always one of `-10`, `0`, `10`. -/
theorem value_cases : ∀ (fuel : Nat) (b : Board) (isMax : Bool),
    value fuel b isMax = -10 ∨ value fuel b isMax = 0 ∨ value fuel b isMax = 10 := by
  intro fuel
  induction fuel with
  | zero => intro b isMax; exact Or.inr (Or.inl rfl)
  | succ n ih =>
    intro b isMax
    unfold value
    by_cases hs : evaluate b = 10 ∨ evaluate b = -10
    · simp only [hs, if_true]
      exact evaluate_cases b
    · simp only [hs, if_false]
      by_cases hf : is_full b = true
      · simp only [hf, if_true]
        decide
      · simp only [hf]
        obtain ⟨q, hq⟩ : ∃ q : Fin 3 × Fin 3, b.get q.1 q.2 = 0 := by
          by_contra hcon
          exact hf ((is_full_iff b).2 fun p hp => hcon ⟨p, hp⟩)
        have hqm : q ∈ emptyCells b := (mem_emptyCells b q).2 hq
        cases isMax
        · simp only [Bool.false_eq_true, if_false]
          rcases foldl_min_mem ((emptyCells b).map fun p => value n (b.set p.1 p.2 PO) true)
            INT_MAX with h | h
          · exfalso
            have h1 := (le_foldl_min INT_MAX _ INT_MAX).1 (le_of_eq h.symm)
            have h2 := h1.2 _ (List.mem_map_of_mem _ hqm)
            have h3 := ih (b.set q.1 q.2 PO) true
            simp only [INT_MAX] at h2
            omega
          · obtain ⟨p, _, hp⟩ := List.mem_map.1 h
            rw [← hp]
            exact ih _ _
        · simp only [if_true]
          rcases foldl_max_mem ((emptyCells b).map fun p => value n (b.set p.1 p.2 PX) false)
            INT_MIN with h | h
          · exfalso
            have h1 := (foldl_max_le INT_MIN _ INT_MIN).1 (le_of_eq h)
            have h2 := h1.2 _ (List.mem_map_of_mem _ hqm)
            have h3 := ih (b.set q.1 q.2 PX) false
            simp only [INT_MIN] at h2
            omega
          · obtain ⟨p, _, hp⟩ := List.mem_map.1 h
            rw [← hp]
            exact ih _ _

/-- With enough fuel the pure score does not depend on the fuel. -/
theorem value_fuel : ∀ (n m : Nat) (b : Board) (isMax : Bool),
    countEmpty b < n → countEmpty b < m → value n b isMax = value m b isMax := by
  intro n
  induction n with
  | zero => intro m b isMax h; omega
  | succ n ih =>
    intro m b isMax hn hm
    cases m with
    | zero => omega
    | succ m =>
      unfold value
      by_cases hs : evaluate b = 10 ∨ evaluate b = -10
      · simp only [hs, if_true]
      · simp only [hs, if_false]
        by_cases hf : is_full b = true
        · simp only [hf, if_true]
        · simp only [hf]
          have hmap : ∀ (sym : Cell) (t : Bool), sym ≠ 0 →
              ((emptyCells b).map fun p => value n (b.set p.1 p.2 sym) t) =
              ((emptyCells b).map fun p => value m (b.set p.1 p.2 sym) t) := by
            intro sym t hsym
            apply List.map_congr_left
            intro p hp
            have := countEmpty_set b p sym ((mem_emptyCells b p).1 hp) hsym
            apply ih <;> omega
          rw [hmap PX false PX_ne_zero, hmap PO true PO_ne_zero]

theorem allCells_sorted : allCells.Pairwise fun p q => rowMajor p < rowMajor q := by decide

theorem allCells_split {l0 l1 : List (Fin 3 × Fin 3)} {c : Fin 3 × Fin 3}
    (h : allCells = l0 ++ c :: l1) (p : Fin 3 × Fin 3) :
    (p ∈ l0 ↔ rowMajor p < rowMajor c) ∧ (p ∈ l1 ↔ rowMajor c < rowMajor p) := by
  have hs := allCells_sorted
  rw [h, List.pairwise_append, List.pairwise_cons] at hs
  obtain ⟨_, ⟨hc1, _⟩, h01⟩ := hs
  have hmem : p ∈ l0 ∨ p = c ∨ p ∈ l1 := by
    have := mem_allCells p
    rw [h, List.mem_append, List.mem_cons] at this
    exact this
  have hl0 : p ∈ l0 → rowMajor p < rowMajor c :=
    fun hp => h01 p hp c (List.mem_cons_self _ _)
  have hl1 : p ∈ l1 → rowMajor c < rowMajor p := fun hp => hc1 p hp
  constructor
  · refine ⟨hl0, fun hlt => ?_⟩
    rcases hmem with h1 | h1 | h1
    · exact h1
    · rw [h1] at hlt; omega
    · have := hl1 h1; omega
  · refine ⟨hl1, fun hlt => ?_⟩
    rcases hmem with h1 | h1 | h1
    · have := hl0 h1; omega
    · rw [h1] at hlt; omega
    · exact h1

/-- `find_best_move` on a board with an empty cell, for a mover `'X'` or `'O'`
and fuel for the searches it starts: it fills the first cell of the scan whose
score no other empty cell beats. -/
theorem find_best_move_spec (fuel : Nat) (b : Board) (player : Cell)
    (hf : countEmpty b ≤ fuel) (hpl : player = PX ∨ player = PO)
    (hne : ∃ p : Fin 3 × Fin 3, b.get p.1 p.2 = 0) :
    ∃ l0 c l1, allCells = l0 ++ c :: l1 ∧ b.get c.1 c.2 = 0 ∧
      find_best_move fuel b player = some (b.set c.1 c.2 player) ∧
      (∀ p ∈ l0, b.get p.1 p.2 = 0 →
        better player (value fuel (b.set c.1 c.2 player) (decide (player = PO)))
          (value fuel (b.set p.1 p.2 player) (decide (player = PO)))) ∧
      (∀ p ∈ l1, b.get p.1 p.2 = 0 →
        ¬ better player (value fuel (b.set p.1 p.2 player) (decide (player = PO)))
          (value fuel (b.set c.1 c.2 player) (decide (player = PO)))) := by
  have hpne : player ≠ 0 := by
    rcases hpl with h | h <;> rw [h] <;> decide
  have hV : ∀ p : Fin 3 × Fin 3, b.get p.1 p.2 = 0 →
      minimax fuel (b.set p.1 p.2 player) 0 (decide (player = PO)) =
        some (value fuel (b.set p.1 p.2 player) (decide (player = PO)),
          b.set p.1 p.2 player) := by
    intro p hp
    apply minimax_eq_value
    have := countEmpty_set b p player hp hpne
    omega
  obtain ⟨bv, pos1, hrun, hcase⟩ :=
    fbm_loop fuel player b
      (fun p => value fuel (b.set p.1 p.2 player) (decide (player = PO))) hV allCells
      (if player = PX then INT_MIN else INT_MAX) none
  rcases hcase with ⟨_, _, hall⟩ | ⟨l0, c, l1, hl, hc, hpos, _, _, h0, h1⟩
  · exfalso
    obtain ⟨q, hq⟩ := hne
    apply hall q (mem_allCells q) hq
    have hval := value_cases fuel (b.set q.1 q.2 player) (decide (player = PO))
    rcases hpl with h | h
    · subst h
      left
      refine ⟨rfl, ?_⟩
      rw [if_pos rfl]
      unfold INT_MIN
      omega
    · subst h
      right
      refine ⟨rfl, ?_⟩
      have hne2 : ¬ (PO = PX) := by decide
      rw [if_neg hne2]
      unfold INT_MAX
      omega
  · refine ⟨l0, c, l1, hl, hc, ?_, h0, h1⟩
    unfold find_best_move
    simp only [hrun, hpos]

theorem check_winner_eq_firstFull (b : Board) : check_winner b = firstFull b lines := by
  simp only [check_winner, check_winner_loop, firstFull, lines, lineFull]
  split_ifs <;> rfl

theorem firstFull_some (b : Board) (w : Cell) : ∀ ls : List Line,
    firstFull b ls = some w ↔
      ∃ l0 l l1, ls = l0 ++ l :: l1 ∧ (∀ x ∈ l0, ¬ lineFull b x) ∧ lineFull b l ∧
        b.get l.1.1 l.1.2 = w := by
  intro ls
  induction ls with
  | nil => simp [firstFull]
  | cons a t ih =>
    unfold firstFull
    by_cases ha : lineFull b a
    · simp only [ha, if_true, Option.some.injEq]
      constructor
      · intro h
        exact ⟨[], a, t, rfl, fun x hx => absurd hx (List.not_mem_nil x), ha, h⟩
      · rintro ⟨l0, l, l1, hl, h0, _, hw⟩
        cases l0 with
        | nil =>
          simp only [List.nil_append, List.cons.injEq] at hl
          rw [hl.1]; exact hw
        | cons x xs =>
          simp only [List.cons_append, List.cons.injEq] at hl
          exact absurd (hl.1 ▸ ha) (h0 x (List.mem_cons_self _ _))
    · simp only [ha, if_false]
      rw [ih]
      constructor
      · rintro ⟨l0, l, l1, hl, h0, hf, hw⟩
        refine ⟨a :: l0, l, l1, by rw [hl]; rfl, ?_, hf, hw⟩
        intro x hx
        rcases List.mem_cons.1 hx with h | h
        · rw [h]; exact ha
        · exact h0 x h
      · rintro ⟨l0, l, l1, hl, h0, hf, hw⟩
        cases l0 with
        | nil =>
          simp only [List.nil_append, List.cons.injEq] at hl
          exact absurd (hl.1 ▸ hf) ha
        | cons x xs =>
          simp only [List.cons_append, List.cons.injEq] at hl
          exact ⟨xs, l, l1, hl.2, fun y hy => h0 y (List.mem_cons_of_mem _ hy), hf, hw⟩

theorem firstFull_none (b : Board) : ∀ ls : List Line,
    firstFull b ls = none ↔ ∀ l ∈ ls, ¬ lineFull b l := by
  intro ls
  induction ls with
  | nil => simp [firstFull]
  | cons a t ih =>
    unfold firstFull
    by_cases ha : lineFull b a
    · simp [ha]
    · simp [ha, ih]

theorem check_winner_some_iff (b : Board) (w : Cell) :
    check_winner b = some w ↔
      ∃ l0 l l1, lines = l0 ++ l :: l1 ∧ (∀ x ∈ l0, ¬ lineFull b x) ∧ lineFull b l ∧
        b.get l.1.1 l.1.2 = w := by
  rw [check_winner_eq_firstFull]; exact firstFull_some b w lines

theorem check_winner_none_iff (b : Board) :
    check_winner b = none ↔ ∀ l ∈ lines, ¬ lineFull b l := by
  rw [check_winner_eq_firstFull]; exact firstFull_none b lines

theorem check_winner_some_line (b : Board) (w : Cell) (h : check_winner b = some w) :
    ∃ l ∈ lines, lineFull b l ∧ b.get l.1.1 l.1.2 = w := by
  obtain ⟨l0, l, l1, hl, _, hf, hw⟩ := (check_winner_some_iff b w).1 h
  exact ⟨l, by rw [hl]; simp, hf, hw⟩

theorem check_winner_of_line (b : Board) (l : Line) (hl : l ∈ lines) (hf : lineFull b l) :
    ∃ w, check_winner b = some w := by
  cases h : check_winner b with
  | none => exact absurd hf ((check_winner_none_iff b).1 h l hl)
  | some w => exact ⟨w, rfl⟩

theorem lineFull_of_lineOf {b : Board} {sym : Cell} {l : Line} (hs : sym ≠ 0)
    (h : lineOf b sym l) : lineFull b l := by
  unfold lineOf at h
  unfold lineFull
  obtain ⟨h1, h2, h3⟩ := h
  rw [h1, h2, h3]
  exact ⟨hs, rfl, rfl⟩

theorem lineOf_of_lineFull {b : Board} {l : Line} (h : lineFull b l) :
    lineOf b (b.get l.1.1 l.1.2) l := by
  unfold lineFull at h
  unfold lineOf
  obtain ⟨_, h2, h3⟩ := h
  exact ⟨rfl, h2.symm, by rw [← h3, ← h2]⟩

theorem line3_iff (a b c : Nat) : line3 a b c = true ↔ (a ≠ 0 ∧ a = b ∧ b = c) := by
  unfold line3
  simp only [Bool.and_eq_true, Nat.beq_eq, Nat.blt_eq]
  omega

theorem winStep (P : Prop) [Decidable P] (c : Bool) (a : Nat) (rest : Option Cell)
    (restCode : Nat) (hc : c = true ↔ P) (ha : P → a ≠ 0) (hrest : rest = codeToOpt restCode) :
    (if P then some a else rest) = codeToOpt (bif c then a else restCode) := by
  by_cases hP : P
  · have hct : c = true := hc.2 hP
    simp [hP, hct, codeToOpt, ha hP]
  · have hcf : c = false := by
      cases c
      · rfl
      · exact absurd (hc.1 rfl) hP
    simp [hP, hcf, hrest]

theorem check_winner_eq_winCode (a0 a1 a2 b0 b1 b2 c0 c1 c2 : Nat) :
    check_winner ⟨⟨a0, a1, a2⟩, ⟨b0, b1, b2⟩, ⟨c0, c1, c2⟩⟩ =
      codeToOpt (winCode a0 a1 a2 b0 b1 b2 c0 c1 c2) := by
  rw [check_winner_eq_firstFull]
  unfold winCode
  simp only [lines, firstFull]
  refine winStep _ _ _ _ _ (line3_iff a0 a1 a2) (fun h => h.1) ?_
  refine winStep _ _ _ _ _ (line3_iff a0 b0 c0) (fun h => h.1) ?_
  refine winStep _ _ _ _ _ (line3_iff b0 b1 b2) (fun h => h.1) ?_
  refine winStep _ _ _ _ _ (line3_iff a1 b1 c1) (fun h => h.1) ?_
  refine winStep _ _ _ _ _ (line3_iff c0 c1 c2) (fun h => h.1) ?_
  refine winStep _ _ _ _ _ (line3_iff a2 b2 c2) (fun h => h.1) ?_
  refine winStep _ _ _ _ _ (line3_iff a0 b1 c2) (fun h => h.1) ?_
  refine winStep _ _ _ _ _ (line3_iff a2 b1 c0) (fun h => h.1) ?_
  rfl

theorem evaluate_eq_winCode (a0 a1 a2 b0 b1 b2 c0 c1 c2 : Nat) :
    evaluate ⟨⟨a0, a1, a2⟩, ⟨b0, b1, b2⟩, ⟨c0, c1, c2⟩⟩ =
      if winCode a0 a1 a2 b0 b1 b2 c0 c1 c2 = PX then 10
      else if winCode a0 a1 a2 b0 b1 b2 c0 c1 c2 = PO then -10 else 0 := by
  unfold evaluate
  rw [check_winner_eq_winCode]
  unfold codeToOpt
  by_cases h : winCode a0 a1 a2 b0 b1 b2 c0 c1 c2 = 0
  · simp [h, PX, PO]
  · simp [h]

theorem value_succ (n : Nat) (b : Board) (isMax : Bool) :
    value (n + 1) b isMax =
      if evaluate b = 10 ∨ evaluate b = -10 then evaluate b
      else if is_full b then 0
      else if isMax then
        ((emptyCells b).map fun p => value n (b.set p.1 p.2 PX) false).foldl max INT_MIN
      else
        ((emptyCells b).map fun p => value n (b.set p.1 p.2 PO) true).foldl min INT_MAX := by
  rw [value]

theorem value_decisive (n : Nat) (b : Board) (isMax : Bool)
    (h : evaluate b = 10 ∨ evaluate b = -10) : value (n + 1) b isMax = evaluate b := by
  rw [value_succ]
  simp only [h, if_true]

theorem value_full (n : Nat) (b : Board) (isMax : Bool)
    (h : ¬ (evaluate b = 10 ∨ evaluate b = -10)) (hf : is_full b = true) :
    value (n + 1) b isMax = 0 := by
  rw [value_succ]
  simp only [h, if_false, hf, if_true, Bool.false_eq_true]

theorem value_max_le (n : Nat) (b : Board) (k : Int)
    (h : ¬ (evaluate b = 10 ∨ evaluate b = -10)) (hf : ¬ is_full b = true)
    (hk : INT_MIN ≤ k) :
    value (n + 1) b true ≤ k ↔
      ∀ p : Fin 3 × Fin 3, b.get p.1 p.2 = 0 → value n (b.set p.1 p.2 PX) false ≤ k := by
  rw [value_succ]
  simp only [h, if_false, hf, if_true, Bool.false_eq_true]
  rw [foldl_max_le]
  constructor
  · intro hall p hp
    exact hall.2 _ (List.mem_map_of_mem _ ((mem_emptyCells b p).2 hp))
  · intro hall
    refine ⟨hk, fun x hx => ?_⟩
    obtain ⟨p, hp, hpx⟩ := List.mem_map.1 hx
    rw [← hpx]
    exact hall p ((mem_emptyCells b p).1 hp)

theorem le_value_max (n : Nat) (b : Board) (k : Int)
    (h : ¬ (evaluate b = 10 ∨ evaluate b = -10)) (hf : ¬ is_full b = true)
    (hk : INT_MIN < k) :
    k ≤ value (n + 1) b true ↔
      ∃ p : Fin 3 × Fin 3, b.get p.1 p.2 = 0 ∧ k ≤ value n (b.set p.1 p.2 PX) false := by
  rw [value_succ]
  simp only [h, if_false, hf, if_true, Bool.false_eq_true]
  rw [le_foldl_max]
  constructor
  · rintro (hlt | ⟨x, hx, hkx⟩)
    · omega
    · obtain ⟨p, hp, hpx⟩ := List.mem_map.1 hx
      exact ⟨p, (mem_emptyCells b p).1 hp, by rw [hpx]; exact hkx⟩
  · rintro ⟨p, hp, hkp⟩
    exact Or.inr ⟨_, List.mem_map_of_mem _ ((mem_emptyCells b p).2 hp), hkp⟩

theorem le_value_min (n : Nat) (b : Board) (k : Int)
    (h : ¬ (evaluate b = 10 ∨ evaluate b = -10)) (hf : ¬ is_full b = true)
    (hk : k ≤ INT_MAX) :
    k ≤ value (n + 1) b false ↔
      ∀ p : Fin 3 × Fin 3, b.get p.1 p.2 = 0 → k ≤ value n (b.set p.1 p.2 PO) true := by
  rw [value_succ]
  simp only [h, if_false, hf, Bool.false_eq_true]
  rw [le_foldl_min]
  constructor
  · intro hall p hp
    exact hall.2 _ (List.mem_map_of_mem _ ((mem_emptyCells b p).2 hp))
  · intro hall
    refine ⟨hk, fun x hx => ?_⟩
    obtain ⟨p, hp, hpx⟩ := List.mem_map.1 hx
    rw [← hpx]
    exact hall p ((mem_emptyCells b p).1 hp)

theorem value_min_le (n : Nat) (b : Board) (k : Int)
    (h : ¬ (evaluate b = 10 ∨ evaluate b = -10)) (hf : ¬ is_full b = true)
    (hk : k < INT_MAX) :
    value (n + 1) b false ≤ k ↔
      ∃ p : Fin 3 × Fin 3, b.get p.1 p.2 = 0 ∧ value n (b.set p.1 p.2 PO) true ≤ k := by
  rw [value_succ]
  simp only [h, if_false, hf, Bool.false_eq_true]
  rw [foldl_min_le]
  constructor
  · rintro (hlt | ⟨x, hx, hkx⟩)
    · omega
    · obtain ⟨p, hp, hpx⟩ := List.mem_map.1 hx
      exact ⟨p, (mem_emptyCells b p).1 hp, by rw [hpx]; exact hkx⟩
  · rintro ⟨p, hp, hkp⟩
    exact Or.inr ⟨_, List.mem_map_of_mem _ ((mem_emptyCells b p).2 hp), hkp⟩

/-- Soundness of `leB`. -/
theorem leB_sound (d : Bool) : ∀ (e : Nat) (b : Board) (isMax : Bool) (fuel : Nat),
    leB d e b isMax = true → countEmpty b = e → e < fuel → value fuel b isMax ≤ (if d then 0 else -10) := by
  have hbound : INT_MIN ≤ (if d then (0 : Int) else -10) ∧ (if d then (0 : Int) else -10) < INT_MAX := by
    cases d <;> simp [INT_MIN, INT_MAX]
  intro e
  induction e with
  | zero =>
    intro b isMax fuel h he hfuel
    obtain ⟨n, rfl⟩ : ∃ n, fuel = n + 1 := ⟨fuel - 1, by omega⟩
    have hfull : is_full b = true := (is_full_iff_countEmpty b).2 he
    obtain ⟨⟨a0, a1, a2⟩, ⟨b0, b1, b2⟩, ⟨c0, c1, c2⟩⟩ := b
    simp only [leB, Bool.cond_eq_ite, Nat.beq_eq] at h
    by_cases hX : winCode a0 a1 a2 b0 b1 b2 c0 c1 c2 = 88
    · simp [hX] at h
    · by_cases hO : winCode a0 a1 a2 b0 b1 b2 c0 c1 c2 = 79
      · rw [value_decisive _ _ _ (by rw [evaluate_eq_winCode]; simp [PX, PO, hO])]
        rw [evaluate_eq_winCode]
        cases d <;> simp [PX, PO, hO]
      · have hev : evaluate ⟨⟨a0, a1, a2⟩, ⟨b0, b1, b2⟩, ⟨c0, c1, c2⟩⟩ = 0 := by
          rw [evaluate_eq_winCode]; simp [PX, PO, hX, hO]
        rw [value_full _ _ _ (by rw [hev]; decide) hfull]
        simp only [hX, hO, if_false] at h
        simp [h]
  | succ e ih =>
    intro b isMax fuel h he hfuel
    obtain ⟨n, rfl⟩ : ∃ n, fuel = n + 1 := ⟨fuel - 1, by omega⟩
    have hnfull : ¬ is_full b = true := by
      rw [is_full_iff_countEmpty]; omega
    have hchild : ∀ (a : Nat) (c : Board), (0 < a ∨ leB d e c false = true) →
        ∀ p : Fin 3 × Fin 3, a = 0 → b.get p.1 p.2 = 0 → c = b.set p.1 p.2 PX →
        value n (b.set p.1 p.2 PX) false ≤ (if d then 0 else -10) := by
      intro a c hor p ha hp hc
      have hc1 : leB d e c false = true := by
        rcases hor with h0 | h0
        · omega
        · exact h0
      subst hc
      apply ih _ _ _ hc1
      · have := countEmpty_set b p PX hp PX_ne_zero
        omega
      · omega
    have hchild2 : ∀ (p : Fin 3 × Fin 3) (c : Board), b.get p.1 p.2 = 0 →
        leB d e c true = true → c = b.set p.1 p.2 PO →
        value n (b.set p.1 p.2 PO) true ≤ (if d then 0 else -10) := by
      intro p c hp hc1 hc
      subst hc
      apply ih _ _ _ hc1
      · have := countEmpty_set b p PO hp PO_ne_zero
        omega
      · omega
    obtain ⟨⟨a0, a1, a2⟩, ⟨b0, b1, b2⟩, ⟨c0, c1, c2⟩⟩ := b
    simp only [leB, Bool.cond_eq_ite, Nat.beq_eq] at h
    by_cases hX : winCode a0 a1 a2 b0 b1 b2 c0 c1 c2 = 88
    · simp [hX] at h
    · by_cases hO : winCode a0 a1 a2 b0 b1 b2 c0 c1 c2 = 79
      · rw [value_decisive _ _ _ (by rw [evaluate_eq_winCode]; simp [PX, PO, hO])]
        rw [evaluate_eq_winCode]
        cases d <;> simp [PX, PO, hO]
      · have hev : evaluate ⟨⟨a0, a1, a2⟩, ⟨b0, b1, b2⟩, ⟨c0, c1, c2⟩⟩ = 0 := by
          rw [evaluate_eq_winCode]; simp [PX, PO, hX, hO]
        have hnd : ¬ (evaluate ⟨⟨a0, a1, a2⟩, ⟨b0, b1, b2⟩, ⟨c0, c1, c2⟩⟩ = 10 ∨
            evaluate ⟨⟨a0, a1, a2⟩, ⟨b0, b1, b2⟩, ⟨c0, c1, c2⟩⟩ = -10) := by
          rw [hev]; decide
        simp only [hX, hO, if_false] at h
        cases isMax
        · simp only [Bool.false_eq_true, if_false, Bool.and_eq_true, Bool.or_eq_true, Nat.beq_eq] at h
          rw [value_min_le _ _ _ hnd hnfull hbound.2]
          rcases h with ((((((((h | h) | h) | h) | h) | h) | h) | h) | h)
          · exact ⟨(1, 1), h.1, hchild2 (1, 1) _ h.1 h.2 rfl⟩
          · exact ⟨(0, 0), h.1, hchild2 (0, 0) _ h.1 h.2 rfl⟩
          · exact ⟨(0, 2), h.1, hchild2 (0, 2) _ h.1 h.2 rfl⟩
          · exact ⟨(2, 0), h.1, hchild2 (2, 0) _ h.1 h.2 rfl⟩
          · exact ⟨(2, 2), h.1, hchild2 (2, 2) _ h.1 h.2 rfl⟩
          · exact ⟨(0, 1), h.1, hchild2 (0, 1) _ h.1 h.2 rfl⟩
          · exact ⟨(1, 0), h.1, hchild2 (1, 0) _ h.1 h.2 rfl⟩
          · exact ⟨(1, 2), h.1, hchild2 (1, 2) _ h.1 h.2 rfl⟩
          · exact ⟨(2, 1), h.1, hchild2 (2, 1) _ h.1 h.2 rfl⟩
        · simp only [if_true, Bool.and_eq_true, Bool.or_eq_true, Nat.blt_eq] at h
          rw [value_max_le _ _ _ hnd hnfull hbound.1]
          obtain ⟨⟨⟨⟨⟨⟨⟨⟨h1, h2⟩, h3⟩, h4⟩, h5⟩, h6⟩, h7⟩, h8⟩, h9⟩ := h
          rintro ⟨i, j⟩ hp
          fin_cases i <;> fin_cases j <;>
            first
              | exact hchild _ _ h1 _ hp hp rfl | exact hchild _ _ h2 _ hp hp rfl
              | exact hchild _ _ h3 _ hp hp rfl | exact hchild _ _ h4 _ hp hp rfl
              | exact hchild _ _ h5 _ hp hp rfl | exact hchild _ _ h6 _ hp hp rfl
              | exact hchild _ _ h7 _ hp hp rfl | exact hchild _ _ h8 _ hp hp rfl
              | exact hchild _ _ h9 _ hp hp rfl

/-- Soundness of `geB`. -/
theorem geB_sound (d : Bool) : ∀ (e : Nat) (b : Board) (isMax : Bool) (fuel : Nat),
    geB d e b isMax = true → countEmpty b = e → e < fuel → (if d then 0 else 10) ≤ value fuel b isMax := by
  have hbound : INT_MIN < (if d then (0 : Int) else 10) ∧ (if d then (0 : Int) else 10) ≤ INT_MAX := by
    cases d <;> simp [INT_MIN, INT_MAX]
  intro e
  induction e with
  | zero =>
    intro b isMax fuel h he hfuel
    obtain ⟨n, rfl⟩ : ∃ n, fuel = n + 1 := ⟨fuel - 1, by omega⟩
    have hfull : is_full b = true := (is_full_iff_countEmpty b).2 he
    obtain ⟨⟨a0, a1, a2⟩, ⟨b0, b1, b2⟩, ⟨c0, c1, c2⟩⟩ := b
    simp only [geB, Bool.cond_eq_ite, Nat.beq_eq] at h
    by_cases hX : winCode a0 a1 a2 b0 b1 b2 c0 c1 c2 = 88
    · rw [value_decisive _ _ _ (by rw [evaluate_eq_winCode]; simp [PX, PO, hX])]
      rw [evaluate_eq_winCode]
      cases d <;> simp [PX, PO, hX]
    · by_cases hO : winCode a0 a1 a2 b0 b1 b2 c0 c1 c2 = 79
      · simp [hX, hO] at h
      · have hev : evaluate ⟨⟨a0, a1, a2⟩, ⟨b0, b1, b2⟩, ⟨c0, c1, c2⟩⟩ = 0 := by
          rw [evaluate_eq_winCode]; simp [PX, PO, hX, hO]
        rw [value_full _ _ _ (by rw [hev]; decide) hfull]
        simp only [hX, hO, if_false] at h
        simp [h]
  | succ e ih =>
    intro b isMax fuel h he hfuel
    obtain ⟨n, rfl⟩ : ∃ n, fuel = n + 1 := ⟨fuel - 1, by omega⟩
    have hnfull : ¬ is_full b = true := by
      rw [is_full_iff_countEmpty]; omega
    have hchild : ∀ (a : Nat) (c : Board), (0 < a ∨ geB d e c true = true) →
        ∀ p : Fin 3 × Fin 3, a = 0 → b.get p.1 p.2 = 0 → c = b.set p.1 p.2 PO →
        (if d then 0 else 10) ≤ value n (b.set p.1 p.2 PO) true := by
      intro a c hor p ha hp hc
      have hc1 : geB d e c true = true := by
        rcases hor with h0 | h0
        · omega
        · exact h0
      subst hc
      apply ih _ _ _ hc1
      · have := countEmpty_set b p PO hp PO_ne_zero
        omega
      · omega
    have hchild2 : ∀ (p : Fin 3 × Fin 3) (c : Board), b.get p.1 p.2 = 0 →
        geB d e c false = true → c = b.set p.1 p.2 PX →
        (if d then 0 else 10) ≤ value n (b.set p.1 p.2 PX) false := by
      intro p c hp hc1 hc
      subst hc
      apply ih _ _ _ hc1
      · have := countEmpty_set b p PX hp PX_ne_zero
        omega
      · omega
    obtain ⟨⟨a0, a1, a2⟩, ⟨b0, b1, b2⟩, ⟨c0, c1, c2⟩⟩ := b
    simp only [geB, Bool.cond_eq_ite, Nat.beq_eq] at h
    by_cases hX : winCode a0 a1 a2 b0 b1 b2 c0 c1 c2 = 88
    · rw [value_decisive _ _ _ (by rw [evaluate_eq_winCode]; simp [PX, PO, hX])]
      rw [evaluate_eq_winCode]
      cases d <;> simp [PX, PO, hX]
    · by_cases hO : winCode a0 a1 a2 b0 b1 b2 c0 c1 c2 = 79
      · simp [hX, hO] at h
      · have hev : evaluate ⟨⟨a0, a1, a2⟩, ⟨b0, b1, b2⟩, ⟨c0, c1, c2⟩⟩ = 0 := by
          rw [evaluate_eq_winCode]; simp [PX, PO, hX, hO]
        have hnd : ¬ (evaluate ⟨⟨a0, a1, a2⟩, ⟨b0, b1, b2⟩, ⟨c0, c1, c2⟩⟩ = 10 ∨
            evaluate ⟨⟨a0, a1, a2⟩, ⟨b0, b1, b2⟩, ⟨c0, c1, c2⟩⟩ = -10) := by
          rw [hev]; decide
        simp only [hX, hO, if_false] at h
        cases isMax
        · simp only [Bool.false_eq_true, if_false, Bool.and_eq_true, Bool.or_eq_true, Nat.blt_eq] at h
          rw [le_value_min _ _ _ hnd hnfull hbound.2]
          obtain ⟨⟨⟨⟨⟨⟨⟨⟨h1, h2⟩, h3⟩, h4⟩, h5⟩, h6⟩, h7⟩, h8⟩, h9⟩ := h
          rintro ⟨i, j⟩ hp
          fin_cases i <;> fin_cases j <;>
            first
              | exact hchild _ _ h1 _ hp hp rfl | exact hchild _ _ h2 _ hp hp rfl
              | exact hchild _ _ h3 _ hp hp rfl | exact hchild _ _ h4 _ hp hp rfl
              | exact hchild _ _ h5 _ hp hp rfl | exact hchild _ _ h6 _ hp hp rfl
              | exact hchild _ _ h7 _ hp hp rfl | exact hchild _ _ h8 _ hp hp rfl
              | exact hchild _ _ h9 _ hp hp rfl
        · simp only [if_true, Bool.and_eq_true, Bool.or_eq_true, Nat.beq_eq] at h
          rw [le_value_max _ _ _ hnd hnfull hbound.1]
          rcases h with ((((((((h | h) | h) | h) | h) | h) | h) | h) | h)
          · exact ⟨(1, 1), h.1, hchild2 (1, 1) _ h.1 h.2 rfl⟩
          · exact ⟨(0, 0), h.1, hchild2 (0, 0) _ h.1 h.2 rfl⟩
          · exact ⟨(0, 2), h.1, hchild2 (0, 2) _ h.1 h.2 rfl⟩
          · exact ⟨(2, 0), h.1, hchild2 (2, 0) _ h.1 h.2 rfl⟩
          · exact ⟨(2, 2), h.1, hchild2 (2, 2) _ h.1 h.2 rfl⟩
          · exact ⟨(0, 1), h.1, hchild2 (0, 1) _ h.1 h.2 rfl⟩
          · exact ⟨(1, 0), h.1, hchild2 (1, 0) _ h.1 h.2 rfl⟩
          · exact ⟨(1, 2), h.1, hchild2 (1, 2) _ h.1 h.2 rfl⟩
          · exact ⟨(2, 1), h.1, hchild2 (2, 1) _ h.1 h.2 rfl⟩

theorem certLe_sound (s : Int) (e : Nat) (b : Board) (isMax : Bool) (fuel : Nat)
    (h : certLe s e b isMax = true) (he : countEmpty b = e) (hfuel : e < fuel) :
    value fuel b isMax ≤ s := by
  unfold certLe at h
  have hv := value_cases fuel b isMax
  by_cases h1 : 10 ≤ s
  · omega
  · simp only [h1, if_false] at h
    by_cases h2 : 0 ≤ s
    · simp only [h2, if_true] at h
      have := leB_sound true e b isMax fuel h he hfuel
      simp only [if_true] at this
      omega
    · simp only [h2, if_false] at h
      by_cases h3 : -10 ≤ s
      · simp only [h3, if_true] at h
        have := leB_sound false e b isMax fuel h he hfuel
        simp only [Bool.false_eq_true, if_false] at this
        omega
      · simp [h3] at h

theorem certGe_sound (s : Int) (e : Nat) (b : Board) (isMax : Bool) (fuel : Nat)
    (h : certGe s e b isMax = true) (he : countEmpty b = e) (hfuel : e < fuel) :
    s ≤ value fuel b isMax := by
  unfold certGe at h
  have hv := value_cases fuel b isMax
  by_cases h1 : s ≤ -10
  · omega
  · simp only [h1, if_false] at h
    by_cases h2 : s ≤ 0
    · simp only [h2, if_true] at h
      have := geB_sound true e b isMax fuel h he hfuel
      simp only [if_true] at this
      omega
    · simp only [h2, if_false] at h
      by_cases h3 : s ≤ 10
      · simp only [h3, if_true] at h
        have := geB_sound false e b isMax fuel h he hfuel
        simp only [Bool.false_eq_true, if_false] at this
        omega
      · simp [h3] at h

theorem rowMajor_inj {p q : Fin 3 × Fin 3} (h : rowMajor p = rowMajor q) : p = q := by
  obtain ⟨i, j⟩ := p
  obtain ⟨k, l⟩ := q
  unfold rowMajor at h
  simp only at h
  have hi := i.isLt
  have hj := j.isLt
  have hk := k.isLt
  have hl := l.isLt
  have h1 : i.val = k.val := by omega
  have h2 : j.val = l.val := by omega
  rw [Fin.ext h1, Fin.ext h2]

/-- If `c` is empty, beats every earlier empty cell and is beaten by no later
one, then `find_best_move` fills `c`. -/
theorem find_best_move_eq (fuel : Nat) (b : Board) (player : Cell) (c : Fin 3 × Fin 3)
    (hf : countEmpty b ≤ fuel) (hpl : player = PX ∨ player = PO) (hc : b.get c.1 c.2 = 0)
    (hbefore : ∀ p : Fin 3 × Fin 3, rowMajor p < rowMajor c → b.get p.1 p.2 = 0 →
      better player (value fuel (b.set c.1 c.2 player) (decide (player = PO)))
        (value fuel (b.set p.1 p.2 player) (decide (player = PO))))
    (hafter : ∀ p : Fin 3 × Fin 3, rowMajor c < rowMajor p → b.get p.1 p.2 = 0 →
      ¬ better player (value fuel (b.set p.1 p.2 player) (decide (player = PO)))
        (value fuel (b.set c.1 c.2 player) (decide (player = PO)))) :
    find_best_move fuel b player = some (b.set c.1 c.2 player) := by
  obtain ⟨l0, c1, l1, hl, hc1, hres, h0, h1⟩ := find_best_move_spec fuel b player hf hpl ⟨c, hc⟩
  have hirr : ∀ x y : Int, better player x y → ¬ better player y x := by
    intro x y hxy hyx
    unfold better at hxy hyx
    have hXO : PX ≠ PO := by decide
    rcases hxy with ⟨hp, h2⟩ | ⟨hp, h2⟩ <;> rcases hyx with ⟨hq, h3⟩ | ⟨hq, h3⟩
    · omega
    · exact hXO (hp.symm.trans hq)
    · exact hXO (hq.symm.trans hp)
    · omega
  have heq : c = c1 := by
    apply rowMajor_inj
    rcases Nat.lt_trichotomy (rowMajor c) (rowMajor c1) with hlt | heq | hgt
    · exfalso
      have hm : c ∈ l0 := ((allCells_split hl c).1).2 hlt
      exact hafter c1 hlt hc1 (h0 c hm hc)
    · exact heq
    · exfalso
      have hm : c ∈ l1 := ((allCells_split hl c).2).2 hgt
      exact h1 c hm hc (hbefore c1 hgt hc1)
  rw [heq]
  exact hres

theorem moveCertX_sound (s : Int) (e : Nat) (b : Board) (c : Fin 3 × Fin 3) (fuel : Nat)
    (h : moveCertX s e b c = true) (he : countEmpty b = e + 1) (hfuel : e < fuel) :
    find_best_move fuel b PX = some (b.set c.1 c.2 PX) := by
  unfold moveCertX at h
  rw [Bool.and_eq_true, List.all_eq_true] at h
  obtain ⟨hc, hall⟩ := h
  have hc0 : b.get c.1 c.2 = 0 := of_decide_eq_true hc
  have hcount : ∀ p : Fin 3 × Fin 3, b.get p.1 p.2 = 0 → countEmpty (b.set p.1 p.2 PX) = e := by
    intro p hp
    have := countEmpty_set b p PX hp PX_ne_zero
    omega
  have hdec : decide (PX = PO) = false := by decide
  have hcge : s ≤ value fuel (b.set c.1 c.2 PX) false := by
    have := hall c (mem_allCells c)
    simp only [hc0, ne_eq, not_true_eq_false, decide_False, Bool.false_or, lt_irrefl,
      if_false] at this
    exact certGe_sound s e _ false fuel this (hcount c hc0) hfuel
  apply find_best_move_eq fuel b PX c (by omega) (Or.inl rfl) hc0
  · intro p hlt hp
    have := hall p (mem_allCells p)
    simp only [hp, ne_eq, not_true_eq_false, decide_False, Bool.false_or, hlt, if_true] at this
    have hle := certLe_sound (s - 1) e _ false fuel this (hcount p hp) hfuel
    rw [hdec]
    exact Or.inl ⟨rfl, by omega⟩
  · intro p hlt hp
    have := hall p (mem_allCells p)
    have hnlt : ¬ rowMajor p < rowMajor c := by omega
    simp only [hp, ne_eq, not_true_eq_false, decide_False, Bool.false_or, hlt, hnlt, if_true,
      if_false] at this
    have hle := certLe_sound s e _ false fuel this (hcount p hp) hfuel
    rw [hdec]
    have hXO : PX ≠ PO := by decide
    rintro (⟨_, h2⟩ | ⟨h2, _⟩)
    · omega
    · exact hXO h2

theorem moveCertO_sound (s : Int) (e : Nat) (b : Board) (c : Fin 3 × Fin 3) (fuel : Nat)
    (h : moveCertO s e b c = true) (he : countEmpty b = e + 1) (hfuel : e < fuel) :
    find_best_move fuel b PO = some (b.set c.1 c.2 PO) := by
  unfold moveCertO at h
  rw [Bool.and_eq_true, List.all_eq_true] at h
  obtain ⟨hc, hall⟩ := h
  have hc0 : b.get c.1 c.2 = 0 := of_decide_eq_true hc
  have hcount : ∀ p : Fin 3 × Fin 3, b.get p.1 p.2 = 0 → countEmpty (b.set p.1 p.2 PO) = e := by
    intro p hp
    have := countEmpty_set b p PO hp PO_ne_zero
    omega
  have hdec : decide (PO = PO) = true := by decide
  have hcle : value fuel (b.set c.1 c.2 PO) true ≤ s := by
    have := hall c (mem_allCells c)
    simp only [hc0, ne_eq, not_true_eq_false, decide_False, Bool.false_or, lt_irrefl,
      if_false] at this
    exact certLe_sound s e _ true fuel this (hcount c hc0) hfuel
  apply find_best_move_eq fuel b PO c (by omega) (Or.inr rfl) hc0
  · intro p hlt hp
    have := hall p (mem_allCells p)
    simp only [hp, ne_eq, not_true_eq_false, decide_False, Bool.false_or, hlt, if_true] at this
    have hge := certGe_sound (s + 1) e _ true fuel this (hcount p hp) hfuel
    rw [hdec]
    exact Or.inr ⟨rfl, by omega⟩
  · intro p hlt hp
    have := hall p (mem_allCells p)
    have hnlt : ¬ rowMajor p < rowMajor c := by omega
    simp only [hp, ne_eq, not_true_eq_false, decide_False, Bool.false_or, hlt, hnlt, if_true,
      if_false] at this
    have hge := certGe_sound s e _ true fuel this (hcount p hp) hfuel
    rw [hdec]
    have hXO : PO ≠ PX := by decide
    rintro (⟨h2, _⟩ | ⟨_, h2⟩)
    · exact hXO h2
    · omega

theorem selfPlay_cert1 :
    moveCertX 0 8 ⟨⟨0, 0, 0⟩, ⟨0, 0, 0⟩, ⟨0, 0, 0⟩⟩ (0, 0) = true := by
  decide!

theorem selfPlay_cert2 :
    moveCertO 0 7 ⟨⟨88, 0, 0⟩, ⟨0, 0, 0⟩, ⟨0, 0, 0⟩⟩ (1, 1) = true := by
  decide!

theorem selfPlay_cert3 :
    moveCertX 0 6 ⟨⟨88, 0, 0⟩, ⟨0, 79, 0⟩, ⟨0, 0, 0⟩⟩ (0, 1) = true := by
  decide!

theorem selfPlay_cert4 :
    moveCertO 0 5 ⟨⟨88, 88, 0⟩, ⟨0, 79, 0⟩, ⟨0, 0, 0⟩⟩ (0, 2) = true := by
  decide!

theorem selfPlay_cert5 :
    moveCertX 0 4 ⟨⟨88, 88, 79⟩, ⟨0, 79, 0⟩, ⟨0, 0, 0⟩⟩ (2, 0) = true := by
  decide!

theorem selfPlay_cert6 :
    moveCertO 0 3 ⟨⟨88, 88, 79⟩, ⟨0, 79, 0⟩, ⟨88, 0, 0⟩⟩ (1, 0) = true := by
  decide!

theorem selfPlay_cert7 :
    moveCertX 0 2 ⟨⟨88, 88, 79⟩, ⟨79, 79, 0⟩, ⟨88, 0, 0⟩⟩ (1, 2) = true := by
  decide!

theorem selfPlay_cert8 :
    moveCertO 0 1 ⟨⟨88, 88, 79⟩, ⟨79, 79, 88⟩, ⟨88, 0, 0⟩⟩ (2, 1) = true := by
  decide!

theorem selfPlay_cert9 :
    moveCertX 0 0 ⟨⟨88, 88, 79⟩, ⟨79, 79, 88⟩, ⟨88, 79, 0⟩⟩ (2, 2) = true := by
  decide!

theorem leB_empty_max : leB true 9 emptyBoard true = true := by decide!

theorem geB_empty_max : geB true 9 emptyBoard true = true := by decide!

theorem leB_empty_min : leB true 9 emptyBoard false = true := by decide!

theorem geB_empty_min : geB true 9 emptyBoard false = true := by decide!

theorem countEmpty_le (b : Board) : countEmpty b ≤ 9 := by
  unfold countEmpty emptyCells
  exact List.length_filter_le _ _

theorem countEmpty_emptyBoard : countEmpty emptyBoard = 9 := by decide

/-- The pure score of the empty board is `0`, whoever moves first. -/
theorem value_emptyBoard (fuel : Nat) (isMax : Bool) (hfuel : 10 ≤ fuel) :
    value fuel emptyBoard isMax = 0 := by
  have hlt : 9 < fuel := by omega
  cases isMax
  · have h1 := leB_sound true 9 emptyBoard false fuel leB_empty_min countEmpty_emptyBoard hlt
    have h2 := geB_sound true 9 emptyBoard false fuel geB_empty_min countEmpty_emptyBoard hlt
    simp only [if_true] at h1 h2
    omega
  · have h1 := leB_sound true 9 emptyBoard true fuel leB_empty_max countEmpty_emptyBoard hlt
    have h2 := geB_sound true 9 emptyBoard true fuel geB_empty_max countEmpty_emptyBoard hlt
    simp only [if_true] at h1 h2
    omega

theorem evaluate_of_none {b : Board} (h : check_winner b = none) : evaluate b = 0 := by
  simp [evaluate, h]

theorem evaluate_of_X {b : Board} (h : check_winner b = some PX) : evaluate b = 10 := by
  simp [evaluate, h]

theorem evaluate_of_O {b : Board} (h : check_winner b = some PO) : evaluate b = -10 := by
  simp [evaluate, h, PX, PO]

theorem not_decisive_of_none {b : Board} (h : check_winner b = none) :
    ¬ (evaluate b = 10 ∨ evaluate b = -10) := by
  rw [evaluate_of_none h]; decide

/-- A computer turn of the loop in mode 0 that does not end the game. -/
theorem play_game_loop_step0 (fuel turns : Nat) (board b1 : Board) (player next : Cell)
    (input : List (Int × Int)) (hm : find_best_move fuel board player = some b1)
    (hw : check_winner b1 = none) (hf : is_full b1 = false)
    (hnext : (if player = PX then PO else PX) = next) :
    play_game_loop fuel 0 (turns + 1) board player input =
      play_game_loop fuel 0 turns b1 next input := by
  rw [play_game_loop]
  simp only [true_or, if_true, hm, hw, hf, Bool.false_eq_true, if_false, hnext]

/-- A computer turn of the loop in mode 0 that fills the board without a winner. -/
theorem play_game_loop_draw0 (fuel turns : Nat) (board b1 : Board) (player : Cell)
    (input : List (Int × Int)) (hm : find_best_move fuel board player = some b1)
    (hw : check_winner b1 = none) (hf : is_full b1 = true) :
    play_game_loop fuel 0 (turns + 1) board player input = some (b1, Outcome.draw) := by
  rw [play_game_loop]
  simp only [true_or, if_true, hm, hw, hf]

/-- A move accepted by `human_move` fills one empty cell with the mover. -/
theorem human_move_spec (board : Board) (player : Cell) :
    ∀ (input rest : List (Int × Int)) (b1 : Board),
      human_move board player input = some (b1, rest) →
      ∃ p : Fin 3 × Fin 3, board.get p.1 p.2 = 0 ∧ b1 = board.set p.1 p.2 player := by
  intro input
  induction input with
  | nil => intro rest b1 h; simp [human_move] at h
  | cons rc t ih =>
    intro rest b1 h
    obtain ⟨row, col⟩ := rc
    unfold human_move at h
    by_cases hr : 0 ≤ row ∧ row < 3 ∧ 0 ≤ col ∧ col < 3
    · simp only [hr, and_self, dite_true] at h
      by_cases hocc : board.get ⟨row.toNat, by omega⟩ ⟨col.toNat, by omega⟩ ≠ 0
      · rw [if_pos hocc] at h
        exact ih rest b1 h
      · rw [if_neg hocc] at h
        simp only [Option.some.injEq, Prod.mk.injEq] at h
        exact ⟨(⟨row.toNat, by omega⟩, ⟨col.toNat, by omega⟩), not_not.1 hocc, h.1.symm⟩
    · simp only [hr, dite_false] at h
      exact ih rest b1 h

/-- What is left of a turn of the loop in mode 1 once the move is made, when the
mover to come cannot score above `0` on the new board: the game does not end
with `'X'` as winner, provided the rest of the loop does not. -/
theorem turn_tail_safe (b1 b : Board) (o : Outcome) (isMax : Bool)
    (rest : Option (Board × Outcome))
    (hv : value 10 b1 isMax ≤ 0)
    (hrest : check_winner b1 = none → is_full b1 = false → rest = some (b, o) →
      check_winner b ≠ some PX ∧ o ≠ Outcome.win PX)
    (h : (match check_winner b1 with
          | some winner => some (b1, Outcome.win winner)
          | none => if is_full b1 then some (b1, Outcome.draw) else rest) = some (b, o)) :
    check_winner b ≠ some PX ∧ o ≠ Outcome.win PX := by
  cases hcw : check_winner b1 with
  | some w =>
    rw [hcw] at h
    simp only [Option.some.injEq, Prod.mk.injEq] at h
    obtain ⟨hb, ho⟩ := h
    have hw : w ≠ PX := by
      intro hwx
      rw [hwx] at hcw
      have hd : value 10 b1 isMax = evaluate b1 :=
        value_decisive 9 b1 isMax (Or.inl (evaluate_of_X hcw))
      rw [evaluate_of_X hcw] at hd
      omega
    subst hb
    subst ho
    rw [hcw]
    exact ⟨fun h2 => hw (Option.some.inj h2), fun h2 => hw (Outcome.win.inj h2)⟩
  | none =>
    rw [hcw] at h
    by_cases hf : is_full b1 = true
    · simp only [hf, if_true, Option.some.injEq, Prod.mk.injEq] at h
      obtain ⟨hb, ho⟩ := h
      subst hb
      subst ho
      rw [hcw]
      refine ⟨?_, ?_⟩
      · intro h2; cases h2
      · intro h2; cases h2
    · simp only [hf] at h
      exact hrest hcw (by simpa using hf) h

/-- The loop of `play_game` in mode 1, started on an undecided board on which
the mover cannot force a score above `0`, never ends with `'X'` as winner. -/
theorem play_game_loop_safe (fuel : Nat) (hfuel : 9 ≤ fuel) :
    ∀ (turns : Nat) (board : Board) (player : Cell) (input : List (Int × Int))
      (b : Board) (o : Outcome),
      (player = PX ∨ player = PO) → check_winner board = none → is_full board = false →
      value 10 board (decide (player = PX)) ≤ 0 →
      play_game_loop fuel 1 turns board player input = some (b, o) →
      check_winner b ≠ some PX ∧ o ≠ Outcome.win PX := by
  intro turns
  induction turns with
  | zero => intro board player input b o _ _ _ _ h; simp [play_game_loop] at h
  | succ t ih =>
    intro board player input b o hpl hw hnf hv h
    have hnd := not_decisive_of_none hw
    have hnf2 : ¬ is_full board = true := by simp [hnf]
    have hce := countEmpty_le board
    rw [play_game_loop] at h
    rcases hpl with hp | hp
    · -- the human, playing `'X'`
      subst hp
      have hcond : ¬ ((1 : Int) = 0 ∨ ((1 : Int) = 1 ∧ PX = PO)) := by decide
      rw [if_neg hcond] at h
      cases hm : human_move board PX input with
      | none => rw [hm] at h; simp at h
      | some r =>
        obtain ⟨b1, input1⟩ := r
        rw [hm] at h
        simp only at h
        obtain ⟨p, hp0, hb1⟩ := human_move_spec board PX input input1 b1 hm
        have hv9 : value 9 (board.set p.1 p.2 PX) false ≤ 0 := by
          have hv2 : value (9 + 1) board true ≤ 0 := by simpa using hv
          exact (value_max_le 9 board 0 hnd hnf2 (by decide)).1 hv2 p hp0
        have hcnt := countEmpty_set board p PX hp0 PX_ne_zero
        have hv1 : value 10 b1 false ≤ 0 := by
          rw [hb1, value_fuel 10 9 _ false (by omega) (by omega)]
          exact hv9
        refine turn_tail_safe b1 b o false _ hv1 ?_ h
        intro hw1 hf1 hrest
        refine ih b1 (if PX = PX then PO else PX) input1 b o (Or.inr (by decide)) hw1 hf1 ?_ hrest
        have : decide ((if PX = PX then PO else PX) = PX) = false := by decide
        rw [this]
        exact hv1
    · -- the computer, playing `'O'`
      subst hp
      have hcond : ((1 : Int) = 0 ∨ ((1 : Int) = 1 ∧ PO = PO)) := by decide
      rw [if_pos hcond] at h
      have hv2 : value (9 + 1) board false ≤ 0 := by simpa using hv
      obtain ⟨q, hq0, hq⟩ := (value_min_le 9 board 0 hnd hnf2 (by decide)).1 hv2
      obtain ⟨l0, c, l1, hl, hc0, hres, h0, h1⟩ :=
        find_best_move_spec fuel board PO (by omega) (Or.inr rfl) ⟨q, hq0⟩
      rw [hres] at h
      simp only at h
      have hcntc := countEmpty_set board c PO hc0 PO_ne_zero
      have hcntq := countEmpty_set board q PO hq0 PO_ne_zero
      have hdec : decide (PO = PO) = true := by decide
      rw [hdec] at h0 h1
      have hcq : value fuel (board.set c.1 c.2 PO) true ≤ value fuel (board.set q.1 q.2 PO) true := by
        have hmem : q ∈ l0 ∨ q = c ∨ q ∈ l1 := by
          have := mem_allCells q
          rw [hl, List.mem_append, List.mem_cons] at this
          exact this
        rcases hmem with hm | hm | hm
        · have := h0 q hm hq0
          unfold better at this
          rcases this with ⟨hx, _⟩ | ⟨_, hlt⟩
          · exact absurd hx (by decide)
          · omega
        · rw [hm]
        · have := h1 q hm hq0
          unfold better at this
          by_contra hcon
          exact this (Or.inr ⟨rfl, by omega⟩)
      have hv1 : value 10 (board.set c.1 c.2 PO) true ≤ 0 := by
        rw [value_fuel 10 fuel _ true (by omega) (by omega)]
        rw [value_fuel 9 fuel _ true (by omega) (by omega)] at hq
        omega
      refine turn_tail_safe _ b o true _ hv1 ?_ h
      intro hw1 hf1 hrest
      refine ih _ (if PO = PX then PO else PX) input b o (Or.inl (by decide)) hw1 hf1 ?_ hrest
      have : decide ((if PO = PX then PO else PX) = PX) = true := by decide
      rw [this]
      exact hv1

theorem lineFull_iff_cells (b : Board) (l : Line) :
    lineFull b l ↔ b.get l.1.1 l.1.2 ≠ 0 ∧ ∀ q ∈ cellsOf l, b.get q.1 q.2 = b.get l.1.1 l.1.2 := by
  unfold lineFull cellsOf
  simp only [List.mem_cons, List.mem_singleton, forall_eq_or_imp, forall_eq, List.not_mem_nil,
    false_implies, implies_true, and_true, true_and]
  constructor
  · rintro ⟨h1, h2, h3⟩
    exact ⟨h1, h2.symm, by rw [← h3, ← h2]⟩
  · rintro ⟨h1, h2, h3⟩
    exact ⟨h1, h2.symm, by rw [h2, h3]⟩

/-- On a board without a full line, a line that becomes full when `s` is placed
on the empty cell `p` runs through `p` and holds `s` on its other cells. -/
theorem new_line_through (b : Board) (p : Fin 3 × Fin 3) (s : Cell) (l : Line)
    (hnone : check_winner b = none) (hl : l ∈ lines)
    (hf : lineFull (b.set p.1 p.2 s) l) :
    p ∈ cellsOf l ∧ ∀ q ∈ cellsOf l, (b.set p.1 p.2 s).get q.1 q.2 = s := by
  have hnf : ¬ lineFull b l := (check_winner_none_iff b).1 hnone l hl
  rw [lineFull_iff_cells] at hf hnf
  have hp : p ∈ cellsOf l := by
    by_contra hp
    apply hnf
    have hsame : ∀ q ∈ cellsOf l, (b.set p.1 p.2 s).get q.1 q.2 = b.get q.1 q.2 := by
      intro q hq
      apply Board.get_set_other
      intro hqp
      exact hp (hqp ▸ hq)
    have h1 : l.1 ∈ cellsOf l := by simp [cellsOf]
    refine ⟨?_, ?_⟩
    · rw [← hsame l.1 h1]; exact hf.1
    · intro q hq
      rw [← hsame q hq, ← hsame l.1 h1]
      exact hf.2 q hq
  refine ⟨hp, ?_⟩
  have hps : (b.set p.1 p.2 s).get l.1.1 l.1.2 = s := by
    rw [← hf.2 p hp, Board.get_set_same]
  intro q hq
  rw [hf.2 q hq, hps]

theorem check_winner_set_cases (b : Board) (p : Fin 3 × Fin 3) (s w : Cell)
    (hnone : check_winner b = none)
    (h : check_winner (b.set p.1 p.2 s) = some w) : w = s := by
  obtain ⟨l, hl, hf, hw⟩ := check_winner_some_line _ w h
  have := (new_line_through b p s l hnone hl hf).2 l.1 (by simp [cellsOf])
  rw [← hw, this]

/-- Filling the empty cell of a line whose other two cells hold `s`, on a board
without a full line, makes `check_winner` report `s`. -/
theorem check_winner_of_threat (b : Board) (s : Cell) (l : Line) (c : Fin 3 × Fin 3)
    (hs : s ≠ 0) (hnone : check_winner b = none) (ht : threat b s l c) :
    check_winner (b.set c.1 c.2 s) = some s := by
  obtain ⟨hl, hc, _, hoth⟩ := ht
  have hall : ∀ q ∈ cellsOf l, (b.set c.1 c.2 s).get q.1 q.2 = s := by
    intro q hq
    by_cases hqc : q = c
    · rw [hqc, Board.get_set_same]
    · rw [Board.get_set_other b c q s hqc]
      exact hoth q hq hqc
  have h1 : l.1 ∈ cellsOf l := by simp [cellsOf]
  have hf : lineFull (b.set c.1 c.2 s) l := by
    rw [lineFull_iff_cells]
    refine ⟨by rw [hall l.1 h1]; exact hs, fun q hq => by rw [hall q hq, hall l.1 h1]⟩
  obtain ⟨w, hw⟩ := check_winner_of_line _ l hl hf
  rw [hw, check_winner_set_cases b c s w hnone hw]

/-- Filling an empty cell that completes no line of `s`, on a board without a
full line, leaves the board without a full line. -/
theorem check_winner_of_no_threat (b : Board) (s : Cell) (p : Fin 3 × Fin 3)
    (hnone : check_winner b = none) (hp : b.get p.1 p.2 = 0)
    (hno : ∀ k ∈ lines, ¬ threat b s k p) :
    check_winner (b.set p.1 p.2 s) = none := by
  cases h : check_winner (b.set p.1 p.2 s) with
  | none => rfl
  | some w =>
    exfalso
    obtain ⟨l, hl, hf, _⟩ := check_winner_some_line _ w h
    obtain ⟨hpl, hall⟩ := new_line_through b p s l hnone hl hf
    apply hno l hl
    refine ⟨hl, hpl, hp, ?_⟩
    intro q hq hqp
    rw [← Board.get_set_other b p q s hqp]
    exact hall q hq

theorem threat_persists (b : Board) (s t : Cell) (l : Line) (c p : Fin 3 × Fin 3)
    (hs : s ≠ 0) (ht : threat b s l c) (hp : b.get p.1 p.2 = 0) (hpc : p ≠ c) :
    threat (b.set p.1 p.2 t) s l c := by
  obtain ⟨hl, hc, hc0, hoth⟩ := ht
  refine ⟨hl, hc, ?_, ?_⟩
  · rw [Board.get_set_other b p c t (Ne.symm hpc)]
    exact hc0
  · intro q hq hqc
    have hqp : q ≠ p := by
      intro hqp
      have := hoth q hq hqc
      rw [hqp, hp] at this
      exact hs this.symm
    rw [Board.get_set_other b p q t hqp]
    exact hoth q hq hqc

/-- With `'X'` threatening to complete a line at `c`, every other reply of `'O'`
that completes no line of `'O'` scores `10`. -/
theorem value_unblocked_O (n : Nat) (b : Board) (l : Line) (c p : Fin 3 × Fin 3)
    (hnone : check_winner b = none) (ht : threat b PX l c)
    (hno : ∀ k ∈ lines, ¬ threat b PO k p) (hp : b.get p.1 p.2 = 0) (hpc : p ≠ c) :
    value (n + 2) (b.set p.1 p.2 PO) true = 10 := by
  have h1 : check_winner (b.set p.1 p.2 PO) = none :=
    check_winner_of_no_threat b PO p hnone hp hno
  have ht1 : threat (b.set p.1 p.2 PO) PX l c := threat_persists b PX PO l c p PX_ne_zero ht hp hpc
  have h2 : check_winner ((b.set p.1 p.2 PO).set c.1 c.2 PX) = some PX :=
    check_winner_of_threat _ PX l c PX_ne_zero h1 ht1
  have hnf : ¬ is_full (b.set p.1 p.2 PO) = true := by
    rw [is_full_iff]
    intro hall
    exact hall c ht1.2.2.1
  have hge : (10 : Int) ≤ value (n + 1 + 1) (b.set p.1 p.2 PO) true := by
    rw [le_value_max (n + 1) _ 10 (not_decisive_of_none h1) hnf (by decide)]
    refine ⟨c, ht1.2.2.1, ?_⟩
    rw [value_decisive n _ false (Or.inl (evaluate_of_X h2)), evaluate_of_X h2]
  have := value_cases (n + 2) (b.set p.1 p.2 PO) true
  have hge2 : (10 : Int) ≤ value (n + 2) (b.set p.1 p.2 PO) true := hge
  omega

/-- With `'O'` threatening to complete a line at `c`, every other reply of `'X'`
that completes no line of `'X'` scores `-10`. -/
theorem value_unblocked_X (n : Nat) (b : Board) (l : Line) (c p : Fin 3 × Fin 3)
    (hnone : check_winner b = none) (ht : threat b PO l c)
    (hno : ∀ k ∈ lines, ¬ threat b PX k p) (hp : b.get p.1 p.2 = 0) (hpc : p ≠ c) :
    value (n + 2) (b.set p.1 p.2 PX) false = -10 := by
  have h1 : check_winner (b.set p.1 p.2 PX) = none :=
    check_winner_of_no_threat b PX p hnone hp hno
  have ht1 : threat (b.set p.1 p.2 PX) PO l c := threat_persists b PO PX l c p PO_ne_zero ht hp hpc
  have h2 : check_winner ((b.set p.1 p.2 PX).set c.1 c.2 PO) = some PO :=
    check_winner_of_threat _ PO l c PO_ne_zero h1 ht1
  have hnf : ¬ is_full (b.set p.1 p.2 PX) = true := by
    rw [is_full_iff]
    intro hall
    exact hall c ht1.2.2.1
  have hle : value (n + 1 + 1) (b.set p.1 p.2 PX) false ≤ -10 := by
    rw [value_min_le (n + 1) _ (-10) (not_decisive_of_none h1) hnf (by decide)]
    refine ⟨c, ht1.2.2.1, ?_⟩
    rw [value_decisive n _ true (Or.inr (evaluate_of_O h2)), evaluate_of_O h2]
  have := value_cases (n + 2) (b.set p.1 p.2 PX) false
  have hle2 : value (n + 2) (b.set p.1 p.2 PX) false ≤ -10 := hle
  omega

/-- Blocking: on an undecided board where the opponent threatens to complete a
line at `c`, the mover has no line to complete, and the block does not score the
opponent's win, `find_best_move` fills `c`. -/
theorem find_best_move_blocks (fuel : Nat) (b : Board) (mover opp : Cell) (l : Line)
    (c : Fin 3 × Fin 3)
    (hmover : (mover = PX ∧ opp = PO) ∨ (mover = PO ∧ opp = PX))
    (hfuel : countEmpty b ≤ fuel)
    (hthreat : threat b opp l c)
    (hundecided : ∀ k ∈ lines, ¬ lineFull b k)
    (hnowin : ∀ k ∈ lines, ∀ p ∈ cellsOf k, ¬ threat b mover k p)
    (hnolose : minimax fuel (b.set c.1 c.2 mover) 0 (decide (mover = PO)) ≠
      some (if mover = PX then -10 else 10, b.set c.1 c.2 mover)) :
    find_best_move fuel b mover = some (b.set c.1 c.2 mover) := by
  have hnone : check_winner b = none := (check_winner_none_iff b).2 hundecided
  have hc0 : b.get c.1 c.2 = 0 := hthreat.2.2.1
  have hno : ∀ p : Fin 3 × Fin 3, ∀ k ∈ lines, ¬ threat b mover k p :=
    fun p k hk ht => hnowin k hk p ht.2.1 ht
  have hmne : mover ≠ 0 := by
    rcases hmover with ⟨h, _⟩ | ⟨h, _⟩ <;> rw [h] <;> decide
  have hcnt := countEmpty_set b c mover hc0 hmne
  have hVc : minimax fuel (b.set c.1 c.2 mover) 0 (decide (mover = PO)) =
      some (value fuel (b.set c.1 c.2 mover) (decide (mover = PO)), b.set c.1 c.2 mover) :=
    minimax_eq_value fuel _ 0 _ (by omega)
  have hvc := value_cases fuel (b.set c.1 c.2 mover) (decide (mover = PO))
  -- a second empty cell forces two units of fuel
  have hfuel2 : ∀ p : Fin 3 × Fin 3, b.get p.1 p.2 = 0 → p ≠ c → ∃ n, fuel = n + 2 := by
    intro p hp hpc
    have h1 : (b.set c.1 c.2 mover).get p.1 p.2 = 0 := by
      rw [Board.get_set_other b c p mover hpc]; exact hp
    have := countEmpty_set (b.set c.1 c.2 mover) p mover h1 hmne
    exact ⟨fuel - 2, by omega⟩
  rcases hmover with ⟨hm, ho⟩ | ⟨hm, ho⟩
  · subst hm
    subst ho
    have hdec : decide (PX = PO) = false := by decide
    rw [hdec] at hVc hvc hnolose
    have hne : value fuel (b.set c.1 c.2 PX) false ≠ -10 := by
      intro h
      apply hnolose
      rw [hVc, h]
      rfl
    have hother : ∀ p : Fin 3 × Fin 3, b.get p.1 p.2 = 0 → p ≠ c →
        value fuel (b.set p.1 p.2 PX) false = -10 := by
      intro p hp hpc
      obtain ⟨n, rfl⟩ := hfuel2 p hp hpc
      exact value_unblocked_X n b l c p hnone hthreat (hno p) hp hpc
    apply find_best_move_eq fuel b PX c hfuel (Or.inl rfl) hc0
    · intro p hlt hp
      have hpc : p ≠ c := by intro h; rw [h] at hlt; omega
      rw [hdec, hother p hp hpc]
      exact Or.inl ⟨rfl, by omega⟩
    · intro p hlt hp
      have hpc : p ≠ c := by intro h; rw [h] at hlt; omega
      rw [hdec, hother p hp hpc]
      rintro (⟨_, h2⟩ | ⟨h2, _⟩)
      · omega
      · exact absurd h2 (by decide)
  · subst hm
    subst ho
    have hdec : decide (PO = PO) = true := by decide
    have hif : (if PO = PX then (-10 : Int) else 10) = 10 := by decide
    rw [hdec] at hVc hvc hnolose
    rw [hif] at hnolose
    have hne : value fuel (b.set c.1 c.2 PO) true ≠ 10 := by
      intro h
      apply hnolose
      rw [hVc, h]
    have hother : ∀ p : Fin 3 × Fin 3, b.get p.1 p.2 = 0 → p ≠ c →
        value fuel (b.set p.1 p.2 PO) true = 10 := by
      intro p hp hpc
      obtain ⟨n, rfl⟩ := hfuel2 p hp hpc
      exact value_unblocked_O n b l c p hnone hthreat (hno p) hp hpc
    apply find_best_move_eq fuel b PO c hfuel (Or.inr rfl) hc0
    · intro p hlt hp
      have hpc : p ≠ c := by intro h; rw [h] at hlt; omega
      rw [hdec, hother p hp hpc]
      exact Or.inr ⟨rfl, by omega⟩
    · intro p hlt hp
      have hpc : p ≠ c := by intro h; rw [h] at hlt; omega
      rw [hdec, hother p hp hpc]
      rintro (⟨h2, _⟩ | ⟨_, h2⟩)
      · exact absurd h2 (by decide)
      · omega

theorem selfPlay_move1 (fuel : Nat) (hfuel : 9 ≤ fuel) :
    find_best_move fuel ⟨⟨0, 0, 0⟩, ⟨0, 0, 0⟩, ⟨0, 0, 0⟩⟩ PX =
      some ⟨⟨PX, 0, 0⟩, ⟨0, 0, 0⟩, ⟨0, 0, 0⟩⟩ :=
  moveCertX_sound 0 8 _ (0, 0) fuel selfPlay_cert1 (by decide) (by omega)

theorem selfPlay_move2 (fuel : Nat) (hfuel : 9 ≤ fuel) :
    find_best_move fuel ⟨⟨PX, 0, 0⟩, ⟨0, 0, 0⟩, ⟨0, 0, 0⟩⟩ PO =
      some ⟨⟨PX, 0, 0⟩, ⟨0, PO, 0⟩, ⟨0, 0, 0⟩⟩ :=
  moveCertO_sound 0 7 _ (1, 1) fuel selfPlay_cert2 (by decide) (by omega)

theorem selfPlay_move3 (fuel : Nat) (hfuel : 9 ≤ fuel) :
    find_best_move fuel ⟨⟨PX, 0, 0⟩, ⟨0, PO, 0⟩, ⟨0, 0, 0⟩⟩ PX =
      some ⟨⟨PX, PX, 0⟩, ⟨0, PO, 0⟩, ⟨0, 0, 0⟩⟩ :=
  moveCertX_sound 0 6 _ (0, 1) fuel selfPlay_cert3 (by decide) (by omega)

theorem selfPlay_move4 (fuel : Nat) (hfuel : 9 ≤ fuel) :
    find_best_move fuel ⟨⟨PX, PX, 0⟩, ⟨0, PO, 0⟩, ⟨0, 0, 0⟩⟩ PO =
      some ⟨⟨PX, PX, PO⟩, ⟨0, PO, 0⟩, ⟨0, 0, 0⟩⟩ :=
  moveCertO_sound 0 5 _ (0, 2) fuel selfPlay_cert4 (by decide) (by omega)

theorem selfPlay_move5 (fuel : Nat) (hfuel : 9 ≤ fuel) :
    find_best_move fuel ⟨⟨PX, PX, PO⟩, ⟨0, PO, 0⟩, ⟨0, 0, 0⟩⟩ PX =
      some ⟨⟨PX, PX, PO⟩, ⟨0, PO, 0⟩, ⟨PX, 0, 0⟩⟩ :=
  moveCertX_sound 0 4 _ (2, 0) fuel selfPlay_cert5 (by decide) (by omega)

theorem selfPlay_move6 (fuel : Nat) (hfuel : 9 ≤ fuel) :
    find_best_move fuel ⟨⟨PX, PX, PO⟩, ⟨0, PO, 0⟩, ⟨PX, 0, 0⟩⟩ PO =
      some ⟨⟨PX, PX, PO⟩, ⟨PO, PO, 0⟩, ⟨PX, 0, 0⟩⟩ :=
  moveCertO_sound 0 3 _ (1, 0) fuel selfPlay_cert6 (by decide) (by omega)

theorem selfPlay_move7 (fuel : Nat) (hfuel : 9 ≤ fuel) :
    find_best_move fuel ⟨⟨PX, PX, PO⟩, ⟨PO, PO, 0⟩, ⟨PX, 0, 0⟩⟩ PX =
      some ⟨⟨PX, PX, PO⟩, ⟨PO, PO, PX⟩, ⟨PX, 0, 0⟩⟩ :=
  moveCertX_sound 0 2 _ (1, 2) fuel selfPlay_cert7 (by decide) (by omega)

theorem selfPlay_move8 (fuel : Nat) (hfuel : 9 ≤ fuel) :
    find_best_move fuel ⟨⟨PX, PX, PO⟩, ⟨PO, PO, PX⟩, ⟨PX, 0, 0⟩⟩ PO =
      some ⟨⟨PX, PX, PO⟩, ⟨PO, PO, PX⟩, ⟨PX, PO, 0⟩⟩ :=
  moveCertO_sound 0 1 _ (2, 1) fuel selfPlay_cert8 (by decide) (by omega)

theorem selfPlay_move9 (fuel : Nat) (hfuel : 9 ≤ fuel) :
    find_best_move fuel ⟨⟨PX, PX, PO⟩, ⟨PO, PO, PX⟩, ⟨PX, PO, 0⟩⟩ PX =
      some ⟨⟨PX, PX, PO⟩, ⟨PO, PO, PX⟩, ⟨PX, PO, PX⟩⟩ :=
  moveCertX_sound 0 0 _ (2, 2) fuel selfPlay_cert9 (by decide) (by omega)

/-- The game the computer plays against itself from the empty board. -/
theorem selfPlay_game (fuel turns : Nat) (input : List (Int × Int)) (hfuel : 9 ≤ fuel)
    (hturns : 9 ≤ turns) :
    play_game fuel 0 turns input =
      some (⟨⟨PX, PX, PO⟩, ⟨PO, PO, PX⟩, ⟨PX, PO, PX⟩⟩, Outcome.draw) := by
  obtain ⟨t, rfl⟩ : ∃ t, turns = t + 9 := ⟨turns - 9, by omega⟩
  unfold play_game emptyBoard
  rw [play_game_loop_step0 fuel _ _ _ _ PO input (selfPlay_move1 fuel hfuel) (by decide) (by decide)
      (by decide),
    play_game_loop_step0 fuel _ _ _ _ PX input (selfPlay_move2 fuel hfuel) (by decide) (by decide)
      (by decide),
    play_game_loop_step0 fuel _ _ _ _ PO input (selfPlay_move3 fuel hfuel) (by decide) (by decide)
      (by decide),
    play_game_loop_step0 fuel _ _ _ _ PX input (selfPlay_move4 fuel hfuel) (by decide) (by decide)
      (by decide),
    play_game_loop_step0 fuel _ _ _ _ PO input (selfPlay_move5 fuel hfuel) (by decide) (by decide)
      (by decide),
    play_game_loop_step0 fuel _ _ _ _ PX input (selfPlay_move6 fuel hfuel) (by decide) (by decide)
      (by decide),
    play_game_loop_step0 fuel _ _ _ _ PO input (selfPlay_move7 fuel hfuel) (by decide) (by decide)
      (by decide),
    play_game_loop_step0 fuel _ _ _ _ PX input (selfPlay_move8 fuel hfuel) (by decide) (by decide)
      (by decide),
    play_game_loop_draw0 fuel _ _ _ _ input (selfPlay_move9 fuel hfuel) (by decide) (by decide)]

/-- A human turn of the loop in mode 1 that does not end the game. -/
theorem play_game_loop_human1 (fuel turns : Nat) (board b1 : Board)
    (input input1 : List (Int × Int)) (hm : human_move board PX input = some (b1, input1))
    (hw : check_winner b1 = none) (hf : is_full b1 = false) :
    play_game_loop fuel 1 (turns + 1) board PX input =
      play_game_loop fuel 1 turns b1 PO input1 := by
  have hcond : ¬ ((1 : Int) = 0 ∨ ((1 : Int) = 1 ∧ PX = PO)) := by decide
  rw [play_game_loop, if_neg hcond, hm]
  simp only [hw, hf, Bool.false_eq_true, if_false, if_true]

/-- A human turn of the loop in mode 1 that fills the board without a winner. -/
theorem play_game_loop_human1_draw (fuel turns : Nat) (board b1 : Board)
    (input input1 : List (Int × Int)) (hm : human_move board PX input = some (b1, input1))
    (hw : check_winner b1 = none) (hf : is_full b1 = true) :
    play_game_loop fuel 1 (turns + 1) board PX input = some (b1, Outcome.draw) := by
  have hcond : ¬ ((1 : Int) = 0 ∨ ((1 : Int) = 1 ∧ PX = PO)) := by decide
  rw [play_game_loop, if_neg hcond, hm]
  simp only [hw, hf, if_true]

/-- A computer turn of the loop in mode 1 that does not end the game. -/
theorem play_game_loop_computer1 (fuel turns : Nat) (board b1 : Board)
    (input : List (Int × Int)) (hm : find_best_move fuel board PO = some b1)
    (hw : check_winner b1 = none) (hf : is_full b1 = false) :
    play_game_loop fuel 1 (turns + 1) board PO input =
      play_game_loop fuel 1 turns b1 PX input := by
  have hcond : ((1 : Int) = 0 ∨ ((1 : Int) = 1 ∧ PO = PO)) := by decide
  have hnext : (if PO = PX then PO else PX) = PX := by decide
  rw [play_game_loop, if_pos hcond, hm]
  simp only [hw, hf, Bool.false_eq_true, if_false, hnext]

/-- A game of mode 1 in which the human plays `(0,0)`, `(0,1)`, `(2,0)`, `(1,2)`,
`(2,2)`: it ends in a draw. -/
theorem humanGame_draw :
    play_game 9 1 9 [(0, 0), (0, 1), (2, 0), (1, 2), (2, 2)] =
      some (⟨⟨PX, PX, PO⟩, ⟨PO, PO, PX⟩, ⟨PX, PO, PX⟩⟩, Outcome.draw) := by
  unfold play_game emptyBoard
  rw [play_game_loop_human1 9 _ _ ⟨⟨PX, 0, 0⟩, ⟨0, 0, 0⟩, ⟨0, 0, 0⟩⟩ _ [(0, 1), (2, 0), (1, 2), (2, 2)] (by decide) (by decide) (by decide),
    play_game_loop_computer1 9 _ _ _ _ (selfPlay_move2 9 (le_refl 9)) (by decide) (by decide),
    play_game_loop_human1 9 _ _ ⟨⟨PX, PX, 0⟩, ⟨0, PO, 0⟩, ⟨0, 0, 0⟩⟩ _ [(2, 0), (1, 2), (2, 2)] (by decide) (by decide) (by decide),
    play_game_loop_computer1 9 _ _ _ _ (selfPlay_move4 9 (le_refl 9)) (by decide) (by decide),
    play_game_loop_human1 9 _ _ ⟨⟨PX, PX, PO⟩, ⟨0, PO, 0⟩, ⟨PX, 0, 0⟩⟩ _ [(1, 2), (2, 2)] (by decide) (by decide) (by decide),
    play_game_loop_computer1 9 _ _ _ _ (selfPlay_move6 9 (le_refl 9)) (by decide) (by decide),
    play_game_loop_human1 9 _ _ ⟨⟨PX, PX, PO⟩, ⟨PO, PO, PX⟩, ⟨PX, 0, 0⟩⟩ _ [(2, 2)] (by decide) (by decide) (by decide),
    play_game_loop_computer1 9 _ _ _ _ (selfPlay_move8 9 (le_refl 9)) (by decide) (by decide),
    play_game_loop_human1_draw 9 _ _ ⟨⟨PX, PX, PO⟩, ⟨PO, PO, PX⟩, ⟨PX, PO, PX⟩⟩ _ [] (by decide) (by decide) (by decide)]

/-- C1: on a board with an empty cell and for a mover `'X'` or `'O'`,
`find_best_move` fills an empty cell `c` whose candidate score `s` (the result of
`minimax` on the board with the mover placed at `c`, with `isMax = (mover == 'O')`)
is extremal over all empty cells (greatest for `'X'`, least for `'O'`), and every
empty cell before `c` in the row-major scan has a strictly worse score, so `c` is
the first extremal cell. -/
theorem C1_find_best_move_first_extremal (fuel : Nat) (b : Board) (mover : Cell)
    (hmover : mover = PX ∨ mover = PO) (hempty : ∃ p : Fin 3 × Fin 3, b.get p.1 p.2 = 0)
    (hfuel : countEmpty b ≤ fuel) :
    ∃ (c : Fin 3 × Fin 3) (s : Int),
      b.get c.1 c.2 = 0 ∧
      find_best_move fuel b mover = some (b.set c.1 c.2 mover) ∧
      minimax fuel (b.set c.1 c.2 mover) 0 (decide (mover = PO)) =
        some (s, b.set c.1 c.2 mover) ∧
      ∀ p : Fin 3 × Fin 3, b.get p.1 p.2 = 0 →
        ∃ t : Int,
          minimax fuel (b.set p.1 p.2 mover) 0 (decide (mover = PO)) =
            some (t, b.set p.1 p.2 mover) ∧
          (mover = PX → t ≤ s ∧ (rowMajor p < rowMajor c → t < s)) ∧
          (mover = PO → s ≤ t ∧ (rowMajor p < rowMajor c → s < t)) := by
  have hpne : mover ≠ 0 := by
    rcases hmover with h | h <;> rw [h] <;> decide
  have hV : ∀ p : Fin 3 × Fin 3, b.get p.1 p.2 = 0 →
      minimax fuel (b.set p.1 p.2 mover) 0 (decide (mover = PO)) =
        some (value fuel (b.set p.1 p.2 mover) (decide (mover = PO)),
          b.set p.1 p.2 mover) := by
    intro p hp
    apply minimax_eq_value
    have := countEmpty_set b p mover hp hpne
    omega
  have hXO : PX ≠ PO := by decide
  obtain ⟨l0, c, l1, hl, hc, hres, h0, h1⟩ := find_best_move_spec fuel b mover hfuel hmover hempty
  refine ⟨c, value fuel (b.set c.1 c.2 mover) (decide (mover = PO)), hc, hres, hV c hc, ?_⟩
  intro p hp
  refine ⟨value fuel (b.set p.1 p.2 mover) (decide (mover = PO)), hV p hp, ?_⟩
  have hsplit := allCells_split hl p
  have hmem : p ∈ l0 ∨ p = c ∨ p ∈ l1 := by
    have := mem_allCells p
    rw [hl, List.mem_append, List.mem_cons] at this
    exact this
  rcases hmem with hm | hm | hm
  · have hb := h0 p hm hp
    unfold better at hb
    constructor
    · intro hx
      rcases hb with ⟨_, hb⟩ | ⟨ho, _⟩
      · exact ⟨by omega, fun _ => by omega⟩
      · exact absurd (hx.symm.trans ho) hXO
    · intro ho
      rcases hb with ⟨hx, _⟩ | ⟨_, hb⟩
      · exact absurd (hx.symm.trans ho) hXO
      · exact ⟨by omega, fun _ => by omega⟩
  · subst hm
    exact ⟨fun _ => ⟨le_refl _, fun h => absurd h (lt_irrefl _)⟩,
      fun _ => ⟨le_refl _, fun h => absurd h (lt_irrefl _)⟩⟩
  · have hb := h1 p hm hp
    have hgt := hsplit.2.1 hm
    unfold better at hb
    constructor
    · intro hx
      have : ¬ (value fuel (b.set p.1 p.2 mover) (decide (mover = PO)) >
          value fuel (b.set c.1 c.2 mover) (decide (mover = PO))) :=
        fun h => hb (Or.inl ⟨hx, h⟩)
      exact ⟨by omega, fun h => by omega⟩
    · intro ho
      have : ¬ (value fuel (b.set p.1 p.2 mover) (decide (mover = PO)) <
          value fuel (b.set c.1 c.2 mover) (decide (mover = PO))) :=
        fun h => hb (Or.inr ⟨ho, h⟩)
      exact ⟨by omega, fun h => by omega⟩

/-- C1 at the empty board with `'X'` to move. -/
theorem C1_witness :
    (PX = PX ∨ PX = PO) ∧ (∃ p : Fin 3 × Fin 3, emptyBoard.get p.1 p.2 = 0) ∧
    countEmpty emptyBoard ≤ 9 ∧
    ∃ (c : Fin 3 × Fin 3) (s : Int),
      emptyBoard.get c.1 c.2 = 0 ∧
      find_best_move 9 emptyBoard PX = some (emptyBoard.set c.1 c.2 PX) ∧
      minimax 9 (emptyBoard.set c.1 c.2 PX) 0 (decide (PX = PO)) =
        some (s, emptyBoard.set c.1 c.2 PX) ∧
      ∀ p : Fin 3 × Fin 3, emptyBoard.get p.1 p.2 = 0 →
        ∃ t : Int,
          minimax 9 (emptyBoard.set p.1 p.2 PX) 0 (decide (PX = PO)) =
            some (t, emptyBoard.set p.1 p.2 PX) ∧
          (PX = PX → t ≤ s ∧ (rowMajor p < rowMajor c → t < s)) ∧
          (PX = PO → s ≤ t ∧ (rowMajor p < rowMajor c → s < t)) :=
  ⟨Or.inl rfl, ⟨(0, 0), rfl⟩, by decide,
    C1_find_best_move_first_extremal 9 emptyBoard PX (Or.inl rfl) ⟨(0, 0), rfl⟩ (by decide)⟩

/-- C2: on a board with an empty cell and for a mover `'X'` or `'O'`,
`find_best_move` returns a board in which exactly one cell that was empty holds
the mover, and every other cell is as before. -/
theorem C2_find_best_move_frame (fuel : Nat) (b : Board) (mover : Cell)
    (hmover : mover = PX ∨ mover = PO) (hempty : ∃ p : Fin 3 × Fin 3, b.get p.1 p.2 = 0)
    (hfuel : countEmpty b ≤ fuel) :
    ∃ b1 : Board, find_best_move fuel b mover = some b1 ∧
      ∃ c : Fin 3 × Fin 3, (b.get c.1 c.2 = 0 ∧ b1.get c.1 c.2 = mover) ∧
        (∀ q : Fin 3 × Fin 3, b.get q.1 q.2 = 0 → b1.get q.1 q.2 = mover → q = c) ∧
        (∀ q : Fin 3 × Fin 3, q ≠ c → b1.get q.1 q.2 = b.get q.1 q.2) := by
  have hpne : mover ≠ 0 := by
    rcases hmover with h | h <;> rw [h] <;> decide
  obtain ⟨l0, c, l1, _, hc, hres, _, _⟩ := find_best_move_spec fuel b mover hfuel hmover hempty
  refine ⟨b.set c.1 c.2 mover, hres, c, ⟨hc, Board.get_set_same b c.1 c.2 mover⟩, ?_, ?_⟩
  · intro q hq0 hq1
    by_contra hne
    rw [Board.get_set_other b c q mover hne, hq0] at hq1
    exact hpne hq1.symm
  · intro q hne
    exact Board.get_set_other b c q mover hne

/-- C2 at the empty board with `'O'` to move. -/
theorem C2_witness :
    (PO = PX ∨ PO = PO) ∧ (∃ p : Fin 3 × Fin 3, emptyBoard.get p.1 p.2 = 0) ∧
    countEmpty emptyBoard ≤ 9 ∧
    ∃ b1 : Board, find_best_move 9 emptyBoard PO = some b1 ∧
      ∃ c : Fin 3 × Fin 3, (emptyBoard.get c.1 c.2 = 0 ∧ b1.get c.1 c.2 = PO) ∧
        (∀ q : Fin 3 × Fin 3, emptyBoard.get q.1 q.2 = 0 → b1.get q.1 q.2 = PO → q = c) ∧
        (∀ q : Fin 3 × Fin 3, q ≠ c → b1.get q.1 q.2 = emptyBoard.get q.1 q.2) :=
  ⟨Or.inr rfl, ⟨(0, 0), rfl⟩, by decide,
    C2_find_best_move_frame 9 emptyBoard PO (Or.inr rfl) ⟨(0, 0), rfl⟩ (by decide)⟩

/-- C3: in a game of `play_game` in mode 1 (the human plays `'X'` from the input,
the computer answers with `find_best_move` for `'O'`), whatever the human enters,
a game that ends does not end on a board for which `check_winner` reports `'X'`,
and the announced winner is not `'X'`. -/
theorem C3_computer_never_loses (fuel turns : Nat) (input : List (Int × Int)) (b : Board)
    (o : Outcome) (hfuel : 9 ≤ fuel) (h : play_game fuel 1 turns input = some (b, o)) :
    check_winner b ≠ some PX ∧ o ≠ Outcome.win PX :=
  play_game_loop_safe fuel hfuel turns emptyBoard PX input b o (Or.inl rfl) (by decide)
    (by decide) (le_of_eq (value_emptyBoard 10 true (le_refl 10))) h

/-- C3 at the game in which the human enters `(0,0)`, `(0,1)`, `(2,0)`, `(1,2)`,
`(2,2)`. -/
theorem C3_witness :
    9 ≤ 9 ∧
    play_game 9 1 9 [(0, 0), (0, 1), (2, 0), (1, 2), (2, 2)] =
      some (⟨⟨PX, PX, PO⟩, ⟨PO, PO, PX⟩, ⟨PX, PO, PX⟩⟩, Outcome.draw) ∧
    check_winner ⟨⟨PX, PX, PO⟩, ⟨PO, PO, PX⟩, ⟨PX, PO, PX⟩⟩ ≠ some PX ∧
    Outcome.draw ≠ Outcome.win PX :=
  ⟨le_refl 9, humanGame_draw,
    C3_computer_never_loses 9 9 [(0, 0), (0, 1), (2, 0), (1, 2), (2, 2)] _ _ (le_refl 9)
      humanGame_draw⟩

/-- C4: `play_game` in mode 0 (the computer plays both sides from the empty
board) stops on a full board for which `check_winner` reports no winner: it
announces a draw. -/
theorem C4_self_play_draw (fuel turns : Nat) (input : List (Int × Int)) (hfuel : 9 ≤ fuel)
    (hturns : 9 ≤ turns) :
    ∃ b : Board, play_game fuel 0 turns input = some (b, Outcome.draw) ∧
      is_full b = true ∧ check_winner b = none :=
  ⟨⟨⟨PX, PX, PO⟩, ⟨PO, PO, PX⟩, ⟨PX, PO, PX⟩⟩, selfPlay_game fuel turns input hfuel hturns,
    by decide, by decide⟩

/-- C4 with nine units of fuel and nine turns. -/
theorem C4_witness :
    9 ≤ 9 ∧ 9 ≤ 9 ∧
    ∃ b : Board, play_game 9 0 9 [] = some (b, Outcome.draw) ∧
      is_full b = true ∧ check_winner b = none :=
  ⟨le_refl 9, le_refl 9, C4_self_play_draw 9 9 [] (le_refl 9) (le_refl 9)⟩

/-- C5: on the empty board `minimax` returns `0`, for either value of `isMax` and
any `depth`. -/
theorem C5_minimax_empty_board (fuel : Nat) (depth : Int) (isMax : Bool) (hfuel : 10 ≤ fuel) :
    minimax fuel emptyBoard depth isMax = some (0, emptyBoard) := by
  rw [minimax_eq_value fuel emptyBoard depth isMax (by rw [countEmpty_emptyBoard]; omega),
    value_emptyBoard fuel isMax hfuel]

/-- C5 with ten units of fuel, `depth = 0` and `isMax = true`. -/
theorem C5_witness : 10 ≤ 10 ∧ minimax 10 emptyBoard 0 true = some (0, emptyBoard) :=
  ⟨le_refl 10, C5_minimax_empty_board 10 0 true (le_refl 10)⟩

/-- C6: whenever `minimax` returns, the board it leaves behind is the board it
was given; and with more fuel than empty cells it does return. -/
theorem C6_minimax_restores_board (fuel : Nat) (b : Board) (depth : Int) (isMax : Bool) :
    (∀ (v : Int) (b1 : Board), minimax fuel b depth isMax = some (v, b1) → b1 = b) ∧
    (countEmpty b < fuel → ∃ v : Int, minimax fuel b depth isMax = some (v, b)) :=
  ⟨fun v b1 h => minimax_board fuel b depth isMax (v, b1) h,
   fun h => ⟨value fuel b isMax, minimax_eq_value fuel b depth isMax h⟩⟩

/-- C6 at the empty board. -/
theorem C6_witness :
    countEmpty emptyBoard < 10 ∧ ∃ v : Int, minimax 10 emptyBoard 0 true = some (v, emptyBoard) :=
  ⟨by decide, (C6_minimax_restores_board 10 emptyBoard 0 true).2 (by decide)⟩

theorem scenario_cert : moveCertO (-10) 4 scenarioBoard (0, 2) = true := by decide!

theorem scenario_move (fuel : Nat) (hfuel : 5 ≤ fuel) :
    find_best_move fuel scenarioBoard PO = some ⟨⟨PX, PX, PO⟩, ⟨PO, PO, 0⟩, ⟨0, 0, 0⟩⟩ :=
  moveCertO_sound (-10) 4 scenarioBoard (0, 2) fuel scenario_cert (by decide) (by omega)

theorem scenario_score_02 : leB false 4 ⟨⟨PX, PX, PO⟩, ⟨PO, PO, 0⟩, ⟨0, 0, 0⟩⟩ true = true := by
  decide!

theorem scenario_score_12 : leB false 4 ⟨⟨PX, PX, 0⟩, ⟨PO, PO, PO⟩, ⟨0, 0, 0⟩⟩ true = true := by
  decide!

/-- C7 fails as stated: on `X X _ / O O _ / _ _ _` with `'O'` to move,
`find_best_move` places `'O'` at `(0, 2)`, not at `(1, 2)`. -/
theorem C7_counterexample :
    find_best_move 9 scenarioBoard PO = some ⟨⟨PX, PX, PO⟩, ⟨PO, PO, 0⟩, ⟨0, 0, 0⟩⟩ ∧
    find_best_move 9 scenarioBoard PO ≠ some (scenarioBoard.set 1 2 PO) := by
  refine ⟨scenario_move 9 (by decide), ?_⟩
  rw [scenario_move 9 (by decide)]
  decide

/-- C7, amended: on `X X _ / O O _ / _ _ _` with `'O'` to move, `find_best_move`
places `'O'` at `(0, 2)`, the first empty cell of the row-major scan whose
candidate score is `-10`; the cell `(1, 2)`, which completes the middle row, has
the same candidate score `-10` and comes later in the scan. -/
theorem C7_scenario_first_winning_cell (fuel : Nat) (hfuel : 5 ≤ fuel) :
    find_best_move fuel scenarioBoard PO = some (scenarioBoard.set 0 2 PO) ∧
    minimax fuel (scenarioBoard.set 0 2 PO) 0 true = some (-10, scenarioBoard.set 0 2 PO) ∧
    minimax fuel (scenarioBoard.set 1 2 PO) 0 true = some (-10, scenarioBoard.set 1 2 PO) ∧
    rowMajor (0, 2) < rowMajor (1, 2) := by
  have hv : ∀ b : Board, countEmpty b = 4 → leB false 4 b true = true →
      minimax fuel b 0 true = some (-10, b) := by
    intro b hb hcert
    rw [minimax_eq_value fuel b 0 true (by omega)]
    have h1 := leB_sound false 4 b true fuel hcert hb (by omega)
    have h2 := value_cases fuel b true
    simp only [Bool.false_eq_true, if_false] at h1
    have h3 : value fuel b true = -10 := by omega
    rw [h3]
  exact ⟨scenario_move fuel hfuel, hv _ (by decide) scenario_score_02,
    hv _ (by decide) scenario_score_12, by decide⟩

/-- C7, amended, with five units of fuel. -/
theorem C7_witness :
    5 ≤ 5 ∧
    find_best_move 5 scenarioBoard PO = some (scenarioBoard.set 0 2 PO) ∧
    minimax 5 (scenarioBoard.set 0 2 PO) 0 true = some (-10, scenarioBoard.set 0 2 PO) ∧
    minimax 5 (scenarioBoard.set 1 2 PO) 0 true = some (-10, scenarioBoard.set 1 2 PO) ∧
    rowMajor (0, 2) < rowMajor (1, 2) :=
  ⟨le_refl 5, C7_scenario_first_winning_cell 5 (le_refl 5)⟩

theorem decided_cert : moveCertO (-10) 3 decidedBoard (0, 0) = true := by decide!

theorem scenario_cert_X : moveCertX 10 4 scenarioBoard (0, 2) = true := by decide!

theorem fork_cert : moveCertO 10 5 forkBoard (0, 2) = true := by decide!

theorem block_cert : leB true 5 ⟨⟨PX, PX, PO⟩, ⟨0, PO, 0⟩, ⟨0, 0, 0⟩⟩ true = true := by decide!

theorem validBoard_of_cells (b : Board)
    (h : ∀ p ∈ allCells, b.get p.1 p.2 = 0 ∨ b.get p.1 p.2 = PX ∨ b.get p.1 p.2 = PO) :
    validBoard b := fun p => h p (mem_allCells p)

/-- C8 fails as stated, in three ways.  On the decided board `_ _ _ / X X _ / O O O`
with `'O'` to move, `'X'` has two in the middle row but `find_best_move` fills
`(0, 0)`.  On `X X _ / O O _ / _ _ _` with `'X'` to move, `'O'` has two in the
middle row but `find_best_move` completes the top row at `(0, 2)`.  On
`X O _ / _ X _ / _ _ _` with `'O'` to move, `'X'` has two on the main diagonal but
every reply loses and `find_best_move` fills the first empty cell `(0, 2)`. -/
theorem C8_counterexample :
    (validBoard decidedBoard ∧ threat decidedBoard PX ((1, 0), (1, 1), (1, 2)) (1, 2) ∧
      find_best_move 9 decidedBoard PO = some (decidedBoard.set 0 0 PO) ∧
      decidedBoard.set 0 0 PO ≠ decidedBoard.set 1 2 PO) ∧
    (validBoard scenarioBoard ∧ threat scenarioBoard PO ((1, 0), (1, 1), (1, 2)) (1, 2) ∧
      find_best_move 9 scenarioBoard PX = some (scenarioBoard.set 0 2 PX) ∧
      scenarioBoard.set 0 2 PX ≠ scenarioBoard.set 1 2 PX) ∧
    (validBoard forkBoard ∧ threat forkBoard PX ((0, 0), (1, 1), (2, 2)) (2, 2) ∧
      find_best_move 9 forkBoard PO = some (forkBoard.set 0 2 PO) ∧
      forkBoard.set 0 2 PO ≠ forkBoard.set 2 2 PO) :=
  ⟨⟨validBoard_of_cells _ (by decide), by decide,
      moveCertO_sound (-10) 3 decidedBoard (0, 0) 9 decided_cert (by decide) (by decide),
      by decide⟩,
    ⟨validBoard_of_cells _ (by decide), by decide,
      moveCertX_sound 10 4 scenarioBoard (0, 2) 9 scenario_cert_X (by decide) (by decide),
      by decide⟩,
    ⟨validBoard_of_cells _ (by decide), by decide,
      moveCertO_sound 10 5 forkBoard (0, 2) 9 fork_cert (by decide) (by decide),
      by decide⟩⟩

/-- C8, amended: let the mover be `'X'` or `'O'` and `opp` the other symbol.  If
some line has two cells holding `opp` and its third cell `c` empty, no line of
the board is full yet, the mover has no line with two cells of its own and the
third empty, and the candidate score of `c` is not the opponent's winning score,
then `find_best_move` places the mover at `c`. -/
theorem C8_blocks_when_it_matters (fuel : Nat) (b : Board) (mover opp : Cell) (l : Line)
    (c : Fin 3 × Fin 3)
    (hmover : (mover = PX ∧ opp = PO) ∨ (mover = PO ∧ opp = PX))
    (hfuel : countEmpty b ≤ fuel)
    (hthreat : threat b opp l c)
    (hundecided : ∀ k ∈ lines, ¬ lineFull b k)
    (hnowin : ∀ k ∈ lines, ∀ p ∈ cellsOf k, ¬ threat b mover k p)
    (hnolose : minimax fuel (b.set c.1 c.2 mover) 0 (decide (mover = PO)) ≠
      some (if mover = PX then -10 else 10, b.set c.1 c.2 mover)) :
    find_best_move fuel b mover = some (b.set c.1 c.2 mover) :=
  find_best_move_blocks fuel b mover opp l c hmover hfuel hthreat hundecided hnowin hnolose

theorem block_nolose :
    minimax 9 (blockBoard.set 0 2 PO) 0 (decide (PO = PO)) ≠
      some (if PO = PX then -10 else 10, blockBoard.set 0 2 PO) := by
  rw [minimax_eq_value 9 _ 0 _ (by decide)]
  have h1 := leB_sound true 5 (blockBoard.set 0 2 PO) true 9 block_cert (by decide) (by decide)
  simp only [if_true] at h1
  intro h
  have hdec : decide (PO = PO) = true := by decide
  have hif : (if PO = PX then (-10 : Int) else 10) = 10 := by decide
  rw [hdec, hif] at h
  simp only [Option.some.injEq, Prod.mk.injEq, and_true] at h
  omega

theorem block_undecided : ∀ k ∈ lines, ¬ lineFull blockBoard k := by decide!

theorem block_nowin : ∀ k ∈ lines, ∀ p ∈ cellsOf k, ¬ threat blockBoard PO k p := by decide!

/-- C8, amended, on `X X _ / _ O _ / _ _ _` with `'O'` to move: the top row is
blocked at `(0, 2)`. -/
theorem C8_witness :
    ((PO = PX ∧ PX = PO) ∨ (PO = PO ∧ PX = PX)) ∧
    countEmpty blockBoard ≤ 9 ∧
    threat blockBoard PX ((0, 0), (0, 1), (0, 2)) (0, 2) ∧
    (∀ k ∈ lines, ¬ lineFull blockBoard k) ∧
    (∀ k ∈ lines, ∀ p ∈ cellsOf k, ¬ threat blockBoard PO k p) ∧
    find_best_move 9 blockBoard PO = some (blockBoard.set 0 2 PO) :=
  ⟨Or.inr ⟨rfl, rfl⟩, by decide, by decide, block_undecided, block_nowin,
    C8_blocks_when_it_matters 9 blockBoard PO PX ((0, 0), (0, 1), (0, 2)) (0, 2)
      (Or.inr ⟨rfl, rfl⟩) (by decide) (by decide) block_undecided block_nowin block_nolose⟩

/-- C9: `check_winner` returns a symbol exactly when one of the eight lines has
three equal non-empty cells; a returned symbol is the content of such a line;
and when no line is full it returns no value. -/
theorem C9_check_winner_lines (b : Board) :
    ((∃ w, check_winner b = some w) ↔ ∃ l ∈ lines, lineFull b l) ∧
    (∀ w, check_winner b = some w → ∃ l ∈ lines, lineFull b l ∧ lineOf b w l) ∧
    ((¬ ∃ l ∈ lines, lineFull b l) → check_winner b = none) := by
  refine ⟨⟨?_, ?_⟩, ?_, ?_⟩
  · rintro ⟨w, hw⟩
    obtain ⟨l, hl, hf, _⟩ := check_winner_some_line b w hw
    exact ⟨l, hl, hf⟩
  · rintro ⟨l, hl, hf⟩
    exact check_winner_of_line b l hl hf
  · intro w hw
    obtain ⟨l, hl, hf, hc⟩ := check_winner_some_line b w hw
    exact ⟨l, hl, hf, hc ▸ lineOf_of_lineFull hf⟩
  · intro h
    rw [check_winner_none_iff]
    intro l hl hf
    exact h ⟨l, hl, hf⟩

/-- C10: on a board of empty, `'X'` and `'O'` cells on which `'X'` and `'O'` do
not both own a line, `evaluate` is `+10` when some line is all `'X'`, `-10` when
some line is all `'O'`, and `0` when no line is full. -/
theorem C10_evaluate_lines (b : Board) (hvalid : validBoard b)
    (hone : ¬ ((∃ l ∈ lines, lineOf b PX l) ∧ (∃ l ∈ lines, lineOf b PO l))) :
    ((∃ l ∈ lines, lineOf b PX l) → evaluate b = 10) ∧
    ((∃ l ∈ lines, lineOf b PO l) → evaluate b = -10) ∧
    ((∀ l ∈ lines, ¬ lineFull b l) → evaluate b = 0) := by
  have hwin : ∀ l ∈ lines, lineFull b l → ∃ w, check_winner b = some w ∧ (w = PX ∨ w = PO) ∧
      ∃ k ∈ lines, lineOf b w k := by
    intro l hl hf
    obtain ⟨w, hw⟩ := check_winner_of_line b l hl hf
    obtain ⟨k, hk, hkf, hkw⟩ := check_winner_some_line b w hw
    refine ⟨w, hw, ?_, k, hk, hkw ▸ lineOf_of_lineFull hkf⟩
    rcases hvalid k.1 with h | h | h
    · exact absurd h hkf.1
    · exact Or.inl (hkw ▸ h)
    · exact Or.inr (hkw ▸ h)
  refine ⟨?_, ?_, ?_⟩
  · rintro ⟨l, hl, hx⟩
    obtain ⟨w, hw, hwc, k, hk, hkw⟩ := hwin l hl (lineFull_of_lineOf PX_ne_zero hx)
    rcases hwc with h | h
    · simp [evaluate, hw, h]
    · exact absurd ⟨⟨l, hl, hx⟩, ⟨k, hk, h ▸ hkw⟩⟩ hone
  · rintro ⟨l, hl, ho⟩
    obtain ⟨w, hw, hwc, k, hk, hkw⟩ := hwin l hl (lineFull_of_lineOf PO_ne_zero ho)
    rcases hwc with h | h
    · exact absurd ⟨⟨k, hk, h ▸ hkw⟩, ⟨l, hl, ho⟩⟩ hone
    · simp [evaluate, hw, h, PO, PX]
  · intro h
    simp [evaluate, (check_winner_none_iff b).2 h]

/-- C10 on the board `X X X / O O _ / _ _ _`. -/
theorem C10_witness :
    validBoard ⟨⟨PX, PX, PX⟩, ⟨PO, PO, 0⟩, ⟨0, 0, 0⟩⟩ ∧
    ¬ ((∃ l ∈ lines, lineOf ⟨⟨PX, PX, PX⟩, ⟨PO, PO, 0⟩, ⟨0, 0, 0⟩⟩ PX l) ∧
       (∃ l ∈ lines, lineOf ⟨⟨PX, PX, PX⟩, ⟨PO, PO, 0⟩, ⟨0, 0, 0⟩⟩ PO l)) ∧
    (((∃ l ∈ lines, lineOf ⟨⟨PX, PX, PX⟩, ⟨PO, PO, 0⟩, ⟨0, 0, 0⟩⟩ PX l) →
        evaluate ⟨⟨PX, PX, PX⟩, ⟨PO, PO, 0⟩, ⟨0, 0, 0⟩⟩ = 10) ∧
     ((∃ l ∈ lines, lineOf ⟨⟨PX, PX, PX⟩, ⟨PO, PO, 0⟩, ⟨0, 0, 0⟩⟩ PO l) →
        evaluate ⟨⟨PX, PX, PX⟩, ⟨PO, PO, 0⟩, ⟨0, 0, 0⟩⟩ = -10) ∧
     ((∀ l ∈ lines, ¬ lineFull ⟨⟨PX, PX, PX⟩, ⟨PO, PO, 0⟩, ⟨0, 0, 0⟩⟩ l) →
        evaluate ⟨⟨PX, PX, PX⟩, ⟨PO, PO, 0⟩, ⟨0, 0, 0⟩⟩ = 0)) :=
  ⟨validBoard_of_cells _ (by decide), by decide,
    C10_evaluate_lines ⟨⟨PX, PX, PX⟩, ⟨PO, PO, 0⟩, ⟨0, 0, 0⟩⟩ (validBoard_of_cells _ (by decide))
      (by decide)⟩

/-- The loops of `find_best_move` over positions that are all occupied change
nothing and start no search. -/
theorem fbm_loop_full (fuel : Nat) (player : Cell) :
    ∀ (l : List (Fin 3 × Fin 3)) (st : FbmState),
      (∀ p ∈ l, st.board.get p.1 p.2 ≠ 0) →
      l.foldlM (find_best_move_body fuel player) st = some st := by
  intro l
  induction l with
  | nil => intro st _; rfl
  | cons p t ih =>
    intro st h
    have hp : st.board.get p.1 p.2 ≠ 0 := h p (List.mem_cons_self _ _)
    have hbody : find_best_move_body fuel player st p = some st := by
      simp only [find_best_move_body, hp, if_false]
    rw [List.foldlM_cons, hbody]
    simp only [Option.bind_eq_bind, Option.some_bind]
    exact ih st fun q hq => h q (List.mem_cons_of_mem _ hq)

/-- C11: on a board without an empty cell `find_best_move` leaves the board as it
is, whatever the mover symbol (and without starting a search: any fuel will do). -/
theorem C11_find_best_move_full_board (fuel : Nat) (b : Board) (player : Cell)
    (hfull : ∀ p : Fin 3 × Fin 3, b.get p.1 p.2 ≠ 0) :
    find_best_move fuel b player = some b := by
  have h := fbm_loop_full fuel player allCells
    ⟨if player = PX then INT_MIN else INT_MAX, none, b⟩ (fun p _ => hfull p)
  unfold find_best_move
  simp only [h]

/-- C11 on the full board `X X O / O O X / X O X` with mover `'X'` and no fuel. -/
theorem C11_witness :
    (∀ p : Fin 3 × Fin 3, (⟨⟨PX, PX, PO⟩, ⟨PO, PO, PX⟩, ⟨PX, PO, PX⟩⟩ : Board).get p.1 p.2 ≠ 0) ∧
    find_best_move 0 ⟨⟨PX, PX, PO⟩, ⟨PO, PO, PX⟩, ⟨PX, PO, PX⟩⟩ PX =
      some ⟨⟨PX, PX, PO⟩, ⟨PO, PO, PX⟩, ⟨PX, PO, PX⟩⟩ :=
  ⟨(is_full_iff _).1 (by decide),
    C11_find_best_move_full_board 0 _ PX ((is_full_iff _).1 (by decide))⟩

theorem late_cert : moveCertX (-10) 0 lateBoard (1, 2) = true := by decide!

/-- On a board whose only empty cell is `c`, `find_best_move` for `'X'` or `'O'`
fills `c`. -/
theorem find_best_move_last_cell (fuel : Nat) (b : Board) (mover : Cell) (c : Fin 3 × Fin 3)
    (hmover : mover = PX ∨ mover = PO) (hfuel : 1 ≤ fuel) (hc : b.get c.1 c.2 = 0)
    (honly : ∀ q : Fin 3 × Fin 3, q ≠ c → b.get q.1 q.2 ≠ 0) :
    find_best_move fuel b mover = some (b.set c.1 c.2 mover) := by
  have hmne : mover ≠ 0 := by
    rcases hmover with h | h <;> rw [h] <;> decide
  have hfull : is_full (b.set c.1 c.2 mover) = true := by
    rw [is_full_iff]
    intro q
    by_cases hq : q = c
    · rw [hq, Board.get_set_same]; exact hmne
    · rw [Board.get_set_other b c q mover hq]; exact honly q hq
  have hcnt := countEmpty_set b c mover hc hmne
  rw [(is_full_iff_countEmpty _).1 hfull] at hcnt
  obtain ⟨l0, c1, l1, _, hc1, hres, _, _⟩ :=
    find_best_move_spec fuel b mover (by omega) hmover ⟨c, hc⟩
  have : c1 = c := by
    by_contra hne
    exact honly c1 hne hc1
  rw [hres, this]

/-- C12 fails as stated: on `O O O / X X _ / X O X` with `'X'` to move, filling
the only empty cell `(1, 2)` completes the middle row of `'X'` and
`find_best_move` does fill it, but `check_winner` on the resulting board reports
`'O'`, whose top row comes first in its scan. -/
theorem C12_counterexample :
    lateBoard.get 1 2 = 0 ∧ (∀ q : Fin 3 × Fin 3, q ≠ (1, 2) → lateBoard.get q.1 q.2 ≠ 0) ∧
    threat lateBoard PX ((1, 0), (1, 1), (1, 2)) (1, 2) ∧
    find_best_move 9 lateBoard PX = some (lateBoard.set 1 2 PX) ∧
    check_winner (lateBoard.set 1 2 PX) = some PO ∧
    check_winner (lateBoard.set 1 2 PX) ≠ some PX :=
  ⟨by decide, by decide, by decide,
    moveCertX_sound (-10) 0 lateBoard (1, 2) 9 late_cert (by decide) (by decide),
    by decide, by decide⟩

/-- C12, amended: on a board whose only empty cell is `c`, for a mover `'X'` or
`'O'` that has the other two cells of some line through `c`, `find_best_move`
places the mover at `c`; and if no line of the board is already full of a symbol
other than the mover's, `check_winner` on the resulting board reports the mover. -/
theorem C12_last_cell_win (fuel : Nat) (b : Board) (mover : Cell) (l : Line)
    (c : Fin 3 × Fin 3)
    (hmover : mover = PX ∨ mover = PO) (hfuel : 1 ≤ fuel)
    (hc : b.get c.1 c.2 = 0) (honly : ∀ q : Fin 3 × Fin 3, q ≠ c → b.get q.1 q.2 ≠ 0)
    (hline : threat b mover l c) :
    find_best_move fuel b mover = some (b.set c.1 c.2 mover) ∧
    ((∀ k ∈ lines, lineFull b k → lineOf b mover k) →
      check_winner (b.set c.1 c.2 mover) = some mover) := by
  have hmne : mover ≠ 0 := by
    rcases hmover with h | h <;> rw [h] <;> decide
  refine ⟨find_best_move_last_cell fuel b mover c hmover hfuel hc honly, ?_⟩
  intro hother
  obtain ⟨hl, hcl, _, hoth⟩ := hline
  -- the line through `c` is full of the mover on the new board
  have hall : ∀ q ∈ cellsOf l, (b.set c.1 c.2 mover).get q.1 q.2 = mover := by
    intro q hq
    by_cases hqc : q = c
    · rw [hqc, Board.get_set_same]
    · rw [Board.get_set_other b c q mover hqc]
      exact hoth q hq hqc
  have h1 : l.1 ∈ cellsOf l := by simp [cellsOf]
  have hf : lineFull (b.set c.1 c.2 mover) l := by
    rw [lineFull_iff_cells]
    exact ⟨by rw [hall l.1 h1]; exact hmne, fun q hq => by rw [hall q hq, hall l.1 h1]⟩
  obtain ⟨w, hw⟩ := check_winner_of_line _ l hl hf
  obtain ⟨k, hk, hkf, hkw⟩ := check_winner_some_line _ w hw
  rw [hw, ← hkw]
  congr 1
  have hk1 : k.1 ∈ cellsOf k := by simp [cellsOf]
  have hkf2 := (lineFull_iff_cells _ k).1 hkf
  by_cases hck : c ∈ cellsOf k
  · rw [← hkf2.2 c hck, Board.get_set_same]
  · have hsame : ∀ q ∈ cellsOf k, (b.set c.1 c.2 mover).get q.1 q.2 = b.get q.1 q.2 := by
      intro q hq
      apply Board.get_set_other
      intro hqc
      exact hck (hqc ▸ hq)
    have hkb : lineFull b k := by
      rw [lineFull_iff_cells]
      refine ⟨by rw [← hsame k.1 hk1]; exact hkf2.1, fun q hq => ?_⟩
      rw [← hsame q hq, ← hsame k.1 hk1]
      exact hkf2.2 q hq
    rw [hsame k.1 hk1]
    exact (hother k hk hkb).1

theorem lastCell_nofull : ∀ k ∈ lines, lineFull lastCellBoard k → lineOf lastCellBoard PX k := by
  decide!

/-- C12, amended, on `X X _ / O O X / O X O` with `'X'` to move. -/
theorem C12_witness :
    (PX = PX ∨ PX = PO) ∧ 1 ≤ 1 ∧ lastCellBoard.get 0 2 = 0 ∧
    (∀ q : Fin 3 × Fin 3, q ≠ (0, 2) → lastCellBoard.get q.1 q.2 ≠ 0) ∧
    threat lastCellBoard PX ((0, 0), (0, 1), (0, 2)) (0, 2) ∧
    (∀ k ∈ lines, lineFull lastCellBoard k → lineOf lastCellBoard PX k) ∧
    find_best_move 1 lastCellBoard PX = some (lastCellBoard.set 0 2 PX) ∧
    check_winner (lastCellBoard.set 0 2 PX) = some PX :=
  ⟨Or.inl rfl, le_refl 1, by decide, by decide, by decide, lastCell_nofull,
    (C12_last_cell_win 1 lastCellBoard PX ((0, 0), (0, 1), (0, 2)) (0, 2) (Or.inl rfl)
      (le_refl 1) (by decide) (by decide) (by decide)).1,
    (C12_last_cell_win 1 lastCellBoard PX ((0, 0), (0, 1), (0, 2)) (0, 2) (Or.inl rfl)
      (le_refl 1) (by decide) (by decide) (by decide)).2 lastCell_nofull⟩

/-- C13: `is_full` is true exactly when no cell of the board is empty. -/
theorem C13_is_full_iff_no_empty (b : Board) :
    is_full b = true ↔ ∀ i j : Fin 3, b.get i j ≠ 0 := by
  rw [is_full_iff]
  exact ⟨fun h i j => h (i, j), fun h p => h p.1 p.2⟩

/-- C14: on a board for which `check_winner` reports `'X'`, `minimax` returns
`+10`, and on one for which it reports `'O'`, `-10`, for either `isMax`, any
`depth` and any number of empty cells; one unit of fuel is enough, so no
recursive call is made. -/
theorem C14_minimax_short_circuit (fuel : Nat) (b : Board) (depth : Int) (isMax : Bool)
    (hfuel : 1 ≤ fuel) :
    (check_winner b = some PX → minimax fuel b depth isMax = some (10, b)) ∧
    (check_winner b = some PO → minimax fuel b depth isMax = some (-10, b)) := by
  obtain ⟨n, rfl⟩ : ∃ n, fuel = n + 1 := ⟨fuel - 1, by omega⟩
  constructor
  · intro h
    have he := evaluate_of_X h
    unfold minimax
    simp only [he, true_or, if_true]
  · intro h
    have he := evaluate_of_O h
    unfold minimax
    simp only [he, or_true, if_true]

/-- C14 with one unit of fuel on `X X X / O O _ / _ _ _`, which has four empty
cells. -/
theorem C14_witness :
    1 ≤ 1 ∧ check_winner ⟨⟨PX, PX, PX⟩, ⟨PO, PO, 0⟩, ⟨0, 0, 0⟩⟩ = some PX ∧
    minimax 1 ⟨⟨PX, PX, PX⟩, ⟨PO, PO, 0⟩, ⟨0, 0, 0⟩⟩ 0 false =
      some (10, ⟨⟨PX, PX, PX⟩, ⟨PO, PO, 0⟩, ⟨0, 0, 0⟩⟩) :=
  ⟨le_refl 1, by decide,
    (C14_minimax_short_circuit 1 ⟨⟨PX, PX, PX⟩, ⟨PO, PO, 0⟩, ⟨0, 0, 0⟩⟩ 0 false (le_refl 1)).1
      (by decide)⟩

theorem referenceAux_succ (n : Nat) (b : Board) (isMax : Bool) :
    referenceAux (n + 1) b isMax =
      if evaluate b = 10 ∨ evaluate b = -10 then evaluate b
      else if is_full b then 0
      else if isMax then
        maxOf ((emptyCells b).map fun c => referenceAux n (b.set c.1 c.2 PX) false)
      else
        minOf ((emptyCells b).map fun c => referenceAux n (b.set c.1 c.2 PO) true) := by
  rw [referenceAux]

theorem maxOf_eq_foldl (l : List Int) (hl : l ≠ []) (h : ∀ x ∈ l, INT_MIN ≤ x) :
    maxOf l = l.foldl max INT_MIN := by
  cases l with
  | nil => exact absurd rfl hl
  | cons x xs =>
    rw [List.foldl_cons, max_eq_right (h x (List.mem_cons_self _ _))]
    rfl

theorem minOf_eq_foldl (l : List Int) (hl : l ≠ []) (h : ∀ x ∈ l, x ≤ INT_MAX) :
    minOf l = l.foldl min INT_MAX := by
  cases l with
  | nil => exact absurd rfl hl
  | cons x xs =>
    rw [List.foldl_cons, min_eq_right (h x (List.mem_cons_self _ _))]
    rfl

theorem emptyCells_ne_nil (b : Board) (hf : ¬ is_full b = true) : emptyCells b ≠ [] := by
  intro h
  apply hf
  rw [is_full_iff_countEmpty]
  unfold countEmpty
  rw [h]
  rfl

/-- The reference evaluator and the pure score folded from the sentinels agree. -/
theorem referenceAux_eq_value : ∀ (n : Nat) (b : Board) (isMax : Bool),
    referenceAux n b isMax = value n b isMax := by
  intro n
  induction n with
  | zero => intro b isMax; rfl
  | succ n ih =>
    intro b isMax
    rw [referenceAux_succ, value_succ]
    by_cases hs : evaluate b = 10 ∨ evaluate b = -10
    · simp only [hs, if_true]
    · simp only [hs, if_false]
      by_cases hf : is_full b = true
      · simp only [hf, if_true]
      · simp only [hf]
        have hne := emptyCells_ne_nil b hf
        have hX : (fun c : Fin 3 × Fin 3 => referenceAux n (b.set c.1 c.2 PX) false) =
            fun c => value n (b.set c.1 c.2 PX) false := funext fun c => ih _ _
        have hO : (fun c : Fin 3 × Fin 3 => referenceAux n (b.set c.1 c.2 PO) true) =
            fun c => value n (b.set c.1 c.2 PO) true := funext fun c => ih _ _
        rw [hX, hO]
        cases isMax
        · simp only [Bool.false_eq_true, if_false]
          apply minOf_eq_foldl
          · intro h
            exact hne (List.map_eq_nil_iff.1 h)
          · intro x hx
            obtain ⟨c, _, hc⟩ := List.mem_map.1 hx
            have := value_cases n (b.set c.1 c.2 PO) true
            unfold INT_MAX
            omega
        · simp only [if_true]
          apply maxOf_eq_foldl
          · intro h
            exact hne (List.map_eq_nil_iff.1 h)
          · intro x hx
            obtain ⟨c, _, hc⟩ := List.mem_map.1 hx
            have := value_cases n (b.set c.1 c.2 PX) false
            unfold INT_MIN
            omega

theorem referenceValue_eq_value (fuel : Nat) (b : Board) (isMax : Bool)
    (h : countEmpty b < fuel) : referenceValue b isMax = value fuel b isMax := by
  unfold referenceValue
  rw [referenceAux_eq_value]
  exact value_fuel _ _ b isMax (by omega) h

/-- The reference evaluator satisfies the equation that defines it. -/
theorem referenceValue_unfold (b : Board) (isMax : Bool) :
    referenceValue b isMax =
      if evaluate b = 10 ∨ evaluate b = -10 then evaluate b
      else if is_full b then 0
      else if isMax then
        maxOf ((emptyCells b).map fun c => referenceValue (b.set c.1 c.2 PX) false)
      else
        minOf ((emptyCells b).map fun c => referenceValue (b.set c.1 c.2 PO) true) := by
  have hmap : ∀ (sym : Cell) (t : Bool), sym ≠ 0 →
      ((emptyCells b).map fun c => referenceAux (countEmpty b) (b.set c.1 c.2 sym) t) =
      ((emptyCells b).map fun c => referenceValue (b.set c.1 c.2 sym) t) := by
    intro sym t hsym
    apply List.map_congr_left
    intro c hc
    have := countEmpty_set b c sym ((mem_emptyCells b c).1 hc) hsym
    unfold referenceValue
    rw [this]
  unfold referenceValue
  rw [referenceAux_succ, hmap PX false PX_ne_zero, hmap PO true PO_ne_zero]
  rfl

/-- C15: with more fuel than empty cells, the in-place `minimax` returns the score
of the reference evaluator over board snapshots (and hands the board back); the
reference evaluator is `evaluate b` if that is `+10` or `-10`, else `0` if `b` is
full, else the greatest value of the boards with `'X'` on one empty cell when
`isMax`, and the least value of the boards with `'O'` on one empty cell when not. -/
theorem C15_minimax_refines_reference (fuel : Nat) (b : Board) (depth : Int) (isMax : Bool)
    (hfuel : countEmpty b < fuel) :
    minimax fuel b depth isMax = some (referenceValue b isMax, b) ∧
    referenceValue b isMax =
      (if evaluate b = 10 ∨ evaluate b = -10 then evaluate b
       else if is_full b then 0
       else if isMax then
         maxOf ((emptyCells b).map fun c => referenceValue (b.set c.1 c.2 PX) false)
       else
         minOf ((emptyCells b).map fun c => referenceValue (b.set c.1 c.2 PO) true)) := by
  refine ⟨?_, referenceValue_unfold b isMax⟩
  rw [minimax_eq_value fuel b depth isMax hfuel, referenceValue_eq_value fuel b isMax hfuel]

/-- C15 on the empty board with ten units of fuel. -/
theorem C15_witness :
    countEmpty emptyBoard < 10 ∧
    minimax 10 emptyBoard 0 true = some (referenceValue emptyBoard true, emptyBoard) :=
  ⟨by decide, (C15_minimax_refines_reference 10 emptyBoard 0 true (by decide)).1⟩

/-- C17: on a board with a full line, `check_winner` returns the content of the
first full line in the order row 0, column 0, row 1, column 1, row 2, column 2,
main diagonal, anti-diagonal (the order of `lines`); in particular it returns
`'O'` when row 0 is all `'O'` and row 1 all `'X'`, and `'X'` when row 0 is all
`'X'` and row 1 all `'O'`. -/
theorem C17_check_winner_first_line (b : Board) :
    ((∃ l ∈ lines, lineFull b l) →
      ∃ l0 l l1, lines = l0 ++ l :: l1 ∧ (∀ x ∈ l0, ¬ lineFull b x) ∧ lineFull b l ∧
        check_winner b = some (b.get l.1.1 l.1.2)) ∧
    (lineOf b PO ((0, 0), (0, 1), (0, 2)) → lineOf b PX ((1, 0), (1, 1), (1, 2)) →
      check_winner b = some PO) ∧
    (lineOf b PX ((0, 0), (0, 1), (0, 2)) → lineOf b PO ((1, 0), (1, 1), (1, 2)) →
      check_winner b = some PX) := by
  have hrow0 : ∀ s : Cell, s ≠ 0 → lineOf b s ((0, 0), (0, 1), (0, 2)) →
      check_winner b = some s := by
    intro s hs h
    rw [check_winner_some_iff]
    exact ⟨[], ((0, 0), (0, 1), (0, 2)), _, rfl, fun x hx => absurd hx (List.not_mem_nil x),
      lineFull_of_lineOf hs h, h.1⟩
  refine ⟨?_, fun h _ => hrow0 PO PO_ne_zero h, fun h _ => hrow0 PX PX_ne_zero h⟩
  rintro ⟨l, hl, hf⟩
  obtain ⟨w, hw⟩ := check_winner_of_line b l hl hf
  obtain ⟨l0, k, l1, hsplit, h0, hk, hkw⟩ := (check_winner_some_iff b w).1 hw
  exact ⟨l0, k, l1, hsplit, h0, hk, by rw [hw, hkw]⟩

/-- C17 on the board `O O O / X X X / _ _ _`. -/
theorem C17_witness :
    lineOf ⟨⟨PO, PO, PO⟩, ⟨PX, PX, PX⟩, ⟨0, 0, 0⟩⟩ PO ((0, 0), (0, 1), (0, 2)) ∧
    lineOf ⟨⟨PO, PO, PO⟩, ⟨PX, PX, PX⟩, ⟨0, 0, 0⟩⟩ PX ((1, 0), (1, 1), (1, 2)) ∧
    check_winner ⟨⟨PO, PO, PO⟩, ⟨PX, PX, PX⟩, ⟨0, 0, 0⟩⟩ = some PO :=
  ⟨by decide, by decide,
    (C17_check_winner_first_line ⟨⟨PO, PO, PO⟩, ⟨PX, PX, PX⟩, ⟨0, 0, 0⟩⟩).2.1
      (by decide) (by decide)⟩

/-- C18: `minimax` terminates on every board: the boards handed to the recursive
calls have one empty cell fewer, a board has at most nine empty cells, and the
call returns as soon as the fuel (the number of nested calls allowed, the
outermost included) exceeds the number of empty cells; so the calls nest at most
as deep as there are empty cells below the outermost one, and ten units of fuel
serve every board. -/
theorem C18_minimax_terminates (b : Board) (depth : Int) (isMax : Bool) :
    (∀ p : Fin 3 × Fin 3, b.get p.1 p.2 = 0 →
      countEmpty (b.set p.1 p.2 PX) + 1 = countEmpty b ∧
      countEmpty (b.set p.1 p.2 PO) + 1 = countEmpty b) ∧
    countEmpty b ≤ 9 ∧
    (∃ v : Int, minimax (countEmpty b + 1) b depth isMax = some (v, b)) ∧
    (∃ v : Int, minimax 10 b depth isMax = some (v, b)) := by
  have h9 := countEmpty_le b
  refine ⟨fun p hp => ⟨countEmpty_set b p PX hp PX_ne_zero, countEmpty_set b p PO hp PO_ne_zero⟩,
    h9, ⟨_, minimax_eq_value _ b depth isMax (Nat.lt_succ_self _)⟩,
    ⟨_, minimax_eq_value 10 b depth isMax (by omega)⟩⟩

/-- C19: with more fuel than empty cells `minimax` returns `-10`, `0` or `+10`,
never one of the sentinels; a score it returns passes the strict comparison of
`find_best_move` against the initial `bestVal` of either mover. -/
theorem C19_minimax_score_range (fuel : Nat) (b : Board) (depth : Int) (isMax : Bool)
    (hfuel : countEmpty b < fuel) :
    ∃ v : Int, minimax fuel b depth isMax = some (v, b) ∧
      (v = -10 ∨ v = 0 ∨ v = 10) ∧ v ≠ INT_MIN ∧ v ≠ INT_MAX ∧
      ∀ player : Cell, player = PX ∨ player = PO →
        (player = PX ∧ v > (if player = PX then INT_MIN else INT_MAX)) ∨
        (player = PO ∧ v < (if player = PX then INT_MIN else INT_MAX)) := by
  have hv := value_cases fuel b isMax
  refine ⟨value fuel b isMax, minimax_eq_value fuel b depth isMax hfuel, hv, ?_, ?_, ?_⟩
  · unfold INT_MIN; omega
  · unfold INT_MAX; omega
  · intro player hpl
    rcases hpl with h | h
    · subst h
      left
      refine ⟨rfl, ?_⟩
      rw [if_pos rfl]
      unfold INT_MIN
      omega
    · subst h
      right
      refine ⟨rfl, ?_⟩
      have hne : ¬ (PO = PX) := by decide
      rw [if_neg hne]
      unfold INT_MAX
      omega

/-- C19 on the empty board with ten units of fuel. -/
theorem C19_witness :
    countEmpty emptyBoard < 10 ∧
    ∃ v : Int, minimax 10 emptyBoard 0 true = some (v, emptyBoard) ∧
      (v = -10 ∨ v = 0 ∨ v = 10) ∧ v ≠ INT_MIN ∧ v ≠ INT_MAX ∧
      ∀ player : Cell, player = PX ∨ player = PO →
        (player = PX ∧ v > (if player = PX then INT_MIN else INT_MAX)) ∨
        (player = PO ∧ v < (if player = PX then INT_MIN else INT_MAX)) :=
  ⟨by decide, C19_minimax_score_range 10 emptyBoard 0 true (by decide)⟩

theorem swapCell_swapCell (c : Cell) : swapCell (swapCell c) = c := by
  unfold swapCell
  by_cases h1 : c = PX
  · simp [h1, PX, PO]
  · by_cases h2 : c = PO
    · simp [h2, PX, PO]
    · simp [h1, h2]

theorem swapCell_inj {a c : Cell} : swapCell a = swapCell c ↔ a = c := by
  constructor
  · intro h
    have := congrArg swapCell h
    rwa [swapCell_swapCell, swapCell_swapCell] at this
  · intro h; rw [h]

theorem swapCell_zero : swapCell 0 = 0 := by decide

theorem swapCell_eq_zero {c : Cell} : swapCell c = 0 ↔ c = 0 := by
  rw [← swapCell_zero, swapCell_inj, swapCell_zero]

theorem swapBoard_get (b : Board) (i j : Fin 3) :
    (swapBoard b).get i j = swapCell (b.get i j) := by
  fin_cases i <;> fin_cases j <;> rfl

theorem swapBoard_set (b : Board) (i j : Fin 3) (v : Cell) :
    swapBoard (b.set i j v) = (swapBoard b).set i j (swapCell v) := by
  fin_cases i <;> fin_cases j <;> rfl

theorem lineFull_swapBoard (b : Board) (l : Line) : lineFull (swapBoard b) l ↔ lineFull b l := by
  unfold lineFull
  simp only [swapBoard_get, swapCell_inj, ne_eq, swapCell_eq_zero]

theorem firstFull_swapBoard (b : Board) : ∀ ls : List Line,
    firstFull (swapBoard b) ls = (firstFull b ls).map swapCell := by
  intro ls
  induction ls with
  | nil => rfl
  | cons l t ih =>
    unfold firstFull
    by_cases h : lineFull b l
    · have h2 : lineFull (swapBoard b) l := (lineFull_swapBoard b l).2 h
      simp only [h, h2, if_true, Option.map_some', swapBoard_get]
    · have h2 : ¬ lineFull (swapBoard b) l := fun hc => h ((lineFull_swapBoard b l).1 hc)
      simp only [h, h2, if_false]
      exact ih

theorem evaluate_swapBoard (b : Board) : evaluate (swapBoard b) = - evaluate b := by
  unfold evaluate
  rw [check_winner_eq_firstFull, check_winner_eq_firstFull, firstFull_swapBoard]
  cases firstFull b lines with
  | none => rfl
  | some w =>
    simp only [Option.map_some']
    unfold swapCell
    by_cases h1 : w = PX
    · simp [h1, PX, PO]
    · by_cases h2 : w = PO
      · simp [h2, PX, PO]
      · simp [h1, h2]

theorem emptyCells_swapBoard (b : Board) : emptyCells (swapBoard b) = emptyCells b := by
  unfold emptyCells
  apply List.filter_congr
  intro p _
  simp only [swapBoard_get, swapCell_eq_zero]

theorem countEmpty_swapBoard (b : Board) : countEmpty (swapBoard b) = countEmpty b := by
  unfold countEmpty
  rw [emptyCells_swapBoard]

theorem is_full_swapBoard (b : Board) : is_full (swapBoard b) = is_full b := by
  have h : is_full (swapBoard b) = true ↔ is_full b = true := by
    rw [is_full_iff_countEmpty, is_full_iff_countEmpty, countEmpty_swapBoard]
  cases h1 : is_full (swapBoard b) <;> cases h2 : is_full b <;> simp_all

theorem foldl_min_neg : ∀ (l : List Int) (a : Int),
    (l.map fun x => -x).foldl min (-a) = - l.foldl max a := by
  intro l
  induction l with
  | nil => intro a; rfl
  | cons x xs ih =>
    intro a
    simp only [List.map_cons, List.foldl_cons]
    have : min (-a) (-x) = -(max a x) := by
      rcases le_total a x with h | h
      · rw [max_eq_right h, min_eq_right (by omega)]
      · rw [max_eq_left h, min_eq_left (by omega)]
    rw [this, ih]

theorem foldl_max_neg : ∀ (l : List Int) (a : Int),
    (l.map fun x => -x).foldl max (-a) = - l.foldl min a := by
  intro l
  induction l with
  | nil => intro a; rfl
  | cons x xs ih =>
    intro a
    simp only [List.map_cons, List.foldl_cons]
    have : max (-a) (-x) = -(min a x) := by
      rcases le_total a x with h | h
      · rw [min_eq_left h, max_eq_left (by omega)]
      · rw [min_eq_right h, max_eq_right (by omega)]
    rw [this, ih]

theorem minOf_neg (l : List Int) : minOf (l.map fun x => -x) = - maxOf l := by
  cases l with
  | nil => rfl
  | cons x xs => exact foldl_min_neg xs x

theorem maxOf_neg (l : List Int) : maxOf (l.map fun x => -x) = - minOf l := by
  cases l with
  | nil => rfl
  | cons x xs => exact foldl_max_neg xs x

/-- Exchanging `'X'` and `'O'` and the side to move negates the reference value. -/
theorem referenceAux_swapBoard : ∀ (n : Nat) (b : Board) (isMax : Bool),
    referenceAux n (swapBoard b) (!isMax) = - referenceAux n b isMax := by
  intro n
  induction n with
  | zero => intro b isMax; rfl
  | succ n ih =>
    intro b isMax
    rw [referenceAux_succ, referenceAux_succ, evaluate_swapBoard, is_full_swapBoard,
      emptyCells_swapBoard]
    have hsX : swapCell PX = PO := by decide
    have hsO : swapCell PO = PX := by decide
    by_cases hs : evaluate b = 10 ∨ evaluate b = -10
    · have hs2 : -evaluate b = 10 ∨ -evaluate b = -10 := by omega
      simp only [hs, hs2, if_true]
    · have hs2 : ¬ (-evaluate b = 10 ∨ -evaluate b = -10) := by omega
      simp only [hs, hs2, if_false]
      by_cases hf : is_full b = true
      · simp only [hf, if_true]
        rfl
      · simp only [hf]
        cases isMax
        · -- `'O'` moves on `b`, `'X'` on the exchanged board
          simp only [Bool.not_false, Bool.false_eq_true, if_true, if_false]
          have hmap : ((emptyCells b).map fun c =>
                referenceAux n ((swapBoard b).set c.1 c.2 PX) false) =
              (((emptyCells b).map fun c => referenceAux n (b.set c.1 c.2 PO) true).map
                fun x => -x) := by
            rw [List.map_map]
            apply List.map_congr_left
            intro c _
            have := ih (b.set c.1 c.2 PO) true
            rw [swapBoard_set, hsO] at this
            simpa using this
          rw [hmap, maxOf_neg]
        · simp only [Bool.not_true, Bool.false_eq_true, if_true, if_false]
          have hmap : ((emptyCells b).map fun c =>
                referenceAux n ((swapBoard b).set c.1 c.2 PO) true) =
              (((emptyCells b).map fun c => referenceAux n (b.set c.1 c.2 PX) false).map
                fun x => -x) := by
            rw [List.map_map]
            apply List.map_congr_left
            intro c _
            have := ih (b.set c.1 c.2 PX) false
            rw [swapBoard_set, hsX] at this
            simpa using this
          rw [hmap, minOf_neg]

/-- C20: exchanging `'X'` and `'O'` on the board and negating `isMax` negates the
score `minimax` returns (with more fuel than empty cells, whatever the `depth`
arguments). -/
theorem C20_colour_swap (fuel : Nat) (b : Board) (depth depth2 : Int) (isMax : Bool)
    (hfuel : countEmpty b < fuel) :
    ∃ v : Int, minimax fuel b depth isMax = some (v, b) ∧
      minimax fuel (swapBoard b) depth2 (!isMax) = some (-v, swapBoard b) := by
  refine ⟨value fuel b isMax, minimax_eq_value fuel b depth isMax hfuel, ?_⟩
  rw [minimax_eq_value fuel (swapBoard b) depth2 (!isMax) (by rw [countEmpty_swapBoard]; exact hfuel),
    ← referenceAux_eq_value, ← referenceAux_eq_value, referenceAux_swapBoard]

/-- C20 on `X X _ / O O _ / _ _ _` with `'O'` to move. -/
theorem C20_witness :
    countEmpty scenarioBoard < 9 ∧
    ∃ v : Int, minimax 9 scenarioBoard 0 false = some (v, scenarioBoard) ∧
      minimax 9 (swapBoard scenarioBoard) 0 (!false) = some (-v, swapBoard scenarioBoard) :=
  ⟨by decide, C20_colour_swap 9 scenarioBoard 0 0 false (by decide)⟩

theorem countSym_set_same (b : Board) (p : Fin 3 × Fin 3) (s : Cell)
    (hp : b.get p.1 p.2 = 0) (hs : s ≠ 0) :
    countSym s (b.set p.1 p.2 s) = countSym s b + 1 := by
  unfold countSym
  symm
  apply countP_update _ _ p allCells allCells_nodup (mem_allCells p)
  · simp [Board.get_set_same]
  · simp [hp, Ne.symm hs]
  · intro x hx
    rw [Board.get_set_other b p x s hx]

theorem countSym_set_other (b : Board) (p : Fin 3 × Fin 3) (s t : Cell)
    (hp : b.get p.1 p.2 = 0) (ht : t ≠ 0) (hst : t ≠ s) :
    countSym t (b.set p.1 p.2 s) = countSym t b := by
  unfold countSym
  apply List.countP_congr
  intro x _
  by_cases hx : x = p
  · rw [hx, Board.get_set_same, hp]
    simp [Ne.symm ht, Ne.symm hst]
  · rw [Board.get_set_other b p x s hx]

/-- The final board of a finished game is the board after one of its turns. -/
theorem play_game_loop_mem_boards (fuel : Nat) (mode : Int) :
    ∀ (turns : Nat) (board : Board) (player : Cell) (input : List (Int × Int))
      (b : Board) (o : Outcome),
      play_game_loop fuel mode turns board player input = some (b, o) →
      b ∈ play_game_boards fuel mode turns board player input := by
  intro turns
  induction turns with
  | zero => intro board player input b o h; simp [play_game_loop] at h
  | succ t ih =>
    intro board player input b o h
    rw [play_game_loop] at h
    rw [play_game_boards]
    generalize (if mode = 0 ∨ (mode = 1 ∧ player = PO) then
        match find_best_move fuel board player with
        | none => none
        | some b => some (b, input)
      else human_move board player input) = moved at h ⊢
    cases moved with
    | none => simp at h
    | some r =>
      obtain ⟨b1, input1⟩ := r
      simp only at h ⊢
      cases hw : check_winner b1 with
      | some w =>
        rw [hw] at h
        simp only [Option.some.injEq, Prod.mk.injEq] at h
        rw [← h.1]
        exact List.mem_cons_self _ _
      | none =>
        rw [hw] at h
        simp only
        by_cases hf : is_full b1 = true
        · simp only [hf, if_true, Option.some.injEq, Prod.mk.injEq] at h
          rw [← h.1]
          exact List.mem_cons_self _ _
        · simp only [hf] at h ⊢
          exact List.mem_cons_of_mem _ (ih _ _ _ _ _ h)

/-- The loop of `play_game`, started with `'X'` to move on a board with as many
`'X'` as `'O'`, or with `'O'` to move on a board with one `'X'` more, on a board
that is not full: after every turn the difference is `0` or `1`. -/
theorem play_game_boards_diff (fuel : Nat) (mode : Int) (hfuel : 9 ≤ fuel) :
    ∀ (turns : Nat) (board : Board) (player : Cell) (input : List (Int × Int)),
      ((player = PX ∧ symDiff board = 0) ∨ (player = PO ∧ symDiff board = 1)) →
      is_full board = false →
      ∀ b ∈ play_game_boards fuel mode turns board player input,
        symDiff b = 0 ∨ symDiff b = 1 := by
  intro turns
  induction turns with
  | zero => intro board player input _ _ b hb; simp [play_game_boards] at hb
  | succ t ih =>
    intro board player input hinv hnf b hb
    have hpl : player = PX ∨ player = PO := by
      rcases hinv with ⟨h, _⟩ | ⟨h, _⟩
      · exact Or.inl h
      · exact Or.inr h
    have hne : ∃ p : Fin 3 × Fin 3, board.get p.1 p.2 = 0 := by
      by_contra hcon
      have : is_full board = true := (is_full_iff board).2 fun p hp => hcon ⟨p, hp⟩
      rw [hnf] at this
      exact absurd this (by decide)
    have hce := countEmpty_le board
    rw [play_game_boards] at hb
    -- whoever moves fills one empty cell with the mover
    have hmove : ∀ r, (if mode = 0 ∨ (mode = 1 ∧ player = PO) then
          match find_best_move fuel board player with
          | none => none
          | some b => some (b, input)
        else human_move board player input) = some r →
        ∃ p : Fin 3 × Fin 3, board.get p.1 p.2 = 0 ∧ r.1 = board.set p.1 p.2 player := by
      intro r hr
      by_cases hc : mode = 0 ∨ (mode = 1 ∧ player = PO)
      · rw [if_pos hc] at hr
        obtain ⟨l0, c, l1, _, hc0, hres, _, _⟩ :=
          find_best_move_spec fuel board player (by omega) hpl hne
        rw [hres] at hr
        simp only [Option.some.injEq] at hr
        exact ⟨c, hc0, by rw [← hr]⟩
      · rw [if_neg hc] at hr
        obtain ⟨b1, input1⟩ := r
        exact human_move_spec board player input input1 b1 hr
    generalize (if mode = 0 ∨ (mode = 1 ∧ player = PO) then
        match find_best_move fuel board player with
        | none => none
        | some b => some (b, input)
      else human_move board player input) = moved at hb hmove
    cases moved with
    | none => simp at hb
    | some r =>
      obtain ⟨b1, input1⟩ := r
      obtain ⟨p, hp0, hb1⟩ := hmove (b1, input1) rfl
      simp only at hb1 hb
      have hXO : PX ≠ PO := by decide
      -- the new board and the mover to come satisfy the invariant again
      have hnew : ((if player = PX then PO else PX) = PX ∧ symDiff b1 = 0) ∨
          ((if player = PX then PO else PX) = PO ∧ symDiff b1 = 1) := by
        rcases hinv with ⟨hx, hd⟩ | ⟨ho, hd⟩
        · right
          refine ⟨by rw [if_pos hx], ?_⟩
          rw [hb1, hx]
          unfold symDiff at hd ⊢
          rw [countSym_set_same board p PX hp0 PX_ne_zero,
            countSym_set_other board p PX PO hp0 PO_ne_zero (Ne.symm hXO)]
          push_cast
          omega
        · left
          have hnx : ¬ player = PX := by rw [ho]; exact Ne.symm hXO
          refine ⟨by rw [if_neg hnx], ?_⟩
          rw [hb1, ho]
          unfold symDiff at hd ⊢
          rw [countSym_set_same board p PO hp0 PO_ne_zero,
            countSym_set_other board p PO PX hp0 PX_ne_zero hXO]
          push_cast
          omega
      have hb1d : symDiff b1 = 0 ∨ symDiff b1 = 1 := by
        rcases hnew with ⟨_, h⟩ | ⟨_, h⟩
        · exact Or.inl h
        · exact Or.inr h
      rcases List.mem_cons.1 hb with h | h
      · rw [h]; exact hb1d
      · cases hw : check_winner b1 with
        | some w => rw [hw] at h; simp at h
        | none =>
          rw [hw] at h
          simp only at h
          by_cases hf : is_full b1 = true
          · simp [hf] at h
          · simp only [hf] at h
            exact ih b1 _ input1 hnew (by simpa using hf) b h

/-- C16: in a game run by the turn loop of `play_game`, in any mode and on any
input, the number of `'X'` cells minus the number of `'O'` cells is `0` or `1`
on the board after every turn; the final board of a finished game is one of
these boards. -/
theorem C16_x_minus_o (fuel turns : Nat) (mode : Int) (input : List (Int × Int))
    (hfuel : 9 ≤ fuel) :
    (∀ b ∈ play_game_boards fuel mode turns emptyBoard PX input,
      symDiff b = 0 ∨ symDiff b = 1) ∧
    (∀ (b : Board) (o : Outcome), play_game fuel mode turns input = some (b, o) →
      b ∈ play_game_boards fuel mode turns emptyBoard PX input) :=
  ⟨play_game_boards_diff fuel mode hfuel turns emptyBoard PX input
      (Or.inl ⟨rfl, by decide⟩) (by decide),
    fun b o h => play_game_loop_mem_boards fuel mode turns emptyBoard PX input b o h⟩

/-- C16 for three turns of a game between two humans. -/
theorem C16_witness :
    9 ≤ 9 ∧
    (∀ b ∈ play_game_boards 9 2 3 emptyBoard PX [(1, 1), (0, 0), (2, 2)],
      symDiff b = 0 ∨ symDiff b = 1) ∧
    (∀ (b : Board) (o : Outcome),
      play_game 9 2 3 [(1, 1), (0, 0), (2, 2)] = some (b, o) →
      b ∈ play_game_boards 9 2 3 emptyBoard PX [(1, 1), (0, 0), (2, 2)]) :=
  ⟨le_refl 9, C16_x_minus_o 9 3 2 [(1, 1), (0, 0), (2, 2)] (le_refl 9)⟩

end TicTacToe
